import Mathlib

/-!
# TSPL dense matrix (`matrix-impl.h`): storage core, product kernels, inverse

A shallow embedding of `Matrix<Type>` and of the routines built on it.

* A heap pointer is a `Ptr`: `null`, `live cells` (an allocated array with its cells) or
  `freed` (the array was released by `delete[]`, the pointer value is still non-null).
* A cell of the element buffer is an `Option`: `none` is the indeterminate value left by
  `new Type[n]`, `some x` a stored element.
* Row pointers are offsets (integers) into the element buffer.
* Every read or write of an element that leaves its array has no result (`none`); the
  functions therefore return `Option`.
* A row pointer read from outside the row-pointer array is an indeterminate word, `none` among
  the pointers `Option Int`: it can be formed and advanced, and only dereferencing it has no
  result (the build without `BOUNDS_CHECK`).
* `int` and `long` are `Nat` where the source only holds non-negative values (dimensions,
  loop counters) and `Int` for pointer offsets, which go one below the buffer start.
-/

/-- The square matrices of order `n` of Mathlib, on which the determinant is taken. -/
abbrev SquareMatrix (n : Nat) (α : Type) : Type := Matrix (Fin n) (Fin n) α

namespace Tspl

/-- A pointer to a heap array of cells. -/
inductive Ptr (β : Type) where
  | null : Ptr β
  | live (cells : List β) : Ptr β
  | freed : Ptr β
deriving DecidableEq

namespace Ptr

variable {β : Type}

/-- The test `p == NULL`. -/
def isNull : Ptr β → Bool
  | null => true
  | _ => false

/-- The read `p[off]`. -/
def read : Ptr β → Int → Option β
  | live cells, off => if 0 ≤ off then cells[off.toNat]? else none
  | _, _ => none

/-- The write `p[off] = v`. -/
def write : Ptr β → Int → β → Option (Ptr β)
  | live cells, off, v =>
    if 0 ≤ off ∧ off.toNat < cells.length then some (live (cells.set off.toNat v)) else none
  | _, _, _ => none

/-- The statement `delete []p`. -/
def delete : Ptr β → Ptr β
  | null => null
  | _ => freed

end Ptr

/-- The loop `for (i = lo; ...; ++i) s = body(i, s)` run for `n` rounds from `i`. -/
def loopFrom {σ : Type} (body : Nat → σ → Option σ) : Nat → Nat → σ → Option σ
  | _, 0, s => some s
  | i, n + 1, s => (body i s).bind (loopFrom body (i + 1) n)

/-- The loop `for (i = lo; i < hi; ++i) s = body(i, s)`. -/
def forLoop {σ : Type} (lo hi : Nat) (body : Nat → σ → Option σ) (s : σ) : Option σ :=
  loopFrom body lo (hi - lo) s

/-- The members of `Matrix<Type>`: the element buffer `pv0`, the row-pointer arrays `prow0`
and `prow1` (entries are offsets into `pv0`), the displacement `prow1Off` of the pointer
`prow1` from the start of its array, and the three counts. (`pv1` is written by `init` and
read by no routine of the file; it is left out.) -/
structure Matrix (α : Type) where
  pv0 : Ptr (Option α)
  prow0 : Ptr Int
  prow1 : Ptr Int
  prow1Off : Int
  nRow : Nat
  nColumn : Nat
  nTotal : Nat
deriving DecidableEq

/-- The loop of `init`: `prow0[i] = p; prow1[i] = p-1; p += nColumn`, for `n` rows from the
current `p`; the two filled arrays. -/
def initRows (nColumn : Nat) : Nat → Int → List Int × List Int
  | 0, _ => ([], [])
  | n + 1, p =>
    let rest := initRows nColumn n (p + nColumn)
    (p :: rest.1, (p - 1) :: rest.2)

namespace Matrix

variable {α : Type}

/-- `Matrix<Type>::init`: sets the counts, allocates the buffer (cells indeterminate) and the
two row-pointer arrays, fills them, and ends with `prow1--`. Every member is overwritten. -/
def init (_self : Matrix α) (rows columns : Nat) : Matrix α :=
  let tables := initRows columns rows 0
  { pv0 := Ptr.live (List.replicate (rows * columns) none)
    prow0 := Ptr.live tables.1
    prow1 := Ptr.live tables.2
    prow1Off := 0 - 1
    nRow := rows
    nColumn := columns
    nTotal := rows * columns }

/-- `Matrix<Type>::copyFromArray`: `pv0[i] = v[i]` for `i < nTotal`. -/
def copyFromArray (self : Matrix α) (v : Ptr (Option α)) : Option (Matrix α) :=
  forLoop 0 self.nTotal
    (fun i m => (v.read i).bind fun x =>
      (m.pv0.write i x).map fun p => { m with pv0 := p })
    self

/-- `Matrix<Type>::setByScalar`: `pv0[i] = x` for `i < nTotal`. -/
def setByScalar (self : Matrix α) (x : α) : Option (Matrix α) :=
  forLoop 0 self.nTotal
    (fun i m => (m.pv0.write i (some x)).map fun p => { m with pv0 := p })
    self

/-- `Matrix<Type>::destroy`: nothing when `pv0 == NULL`; otherwise the three arrays are
released and `prow1` is moved back by `prow1++`. No member is reset. -/
def destroy (self : Matrix α) : Matrix α :=
  if self.pv0.isNull then self
  else
    let m1 := { self with pv0 := self.pv0.delete }
    let m2 := if m1.prow0.isNull then m1 else { m1 with prow0 := m1.prow0.delete }
    let m3 := { m2 with prow1Off := m2.prow1Off + 1 }
    if m3.prow1.isNull then m3 else { m3 with prow1 := m3.prow1.delete }

/-- The default constructor `Matrix()`: all pointers null, all counts zero. -/
def new : Matrix α :=
  { pv0 := Ptr.null, prow0 := Ptr.null, prow1 := Ptr.null, prow1Off := 0,
    nRow := 0, nColumn := 0, nTotal := 0 }

/-- The copy constructor `Matrix(const Matrix &A)`. -/
def copy (A : Matrix α) : Option (Matrix α) :=
  ((new : Matrix α).init A.nRow A.nColumn).copyFromArray A.pv0

/-- The constructor `Matrix(rows, columns, x)`. -/
def fill (rows columns : Nat) (x : α) : Option (Matrix α) :=
  ((new : Matrix α).init rows columns).setByScalar x

/-- The constructor `Matrix(rows, columns, arrays)`; `arrays` is the caller's array. -/
def ofArray (rows columns : Nat) (arrays : List α) : Option (Matrix α) :=
  ((new : Matrix α).init rows columns).copyFromArray (Ptr.live (arrays.map some))

/-- The copy assignment `operator=(const Matrix &A)`; `samePtr` is the outcome of the
address comparison `pv0 == A.pv0`. -/
def assign (self A : Matrix α) (samePtr : Bool) : Option (Matrix α) :=
  if samePtr then some self
  else if self.nRow = A.nRow ∧ self.nColumn = A.nColumn then self.copyFromArray A.pv0
  else ((self.destroy).init A.nRow A.nColumn).copyFromArray A.pv0

/-- The scalar assignment `operator=(const Type &x)`. -/
def assignScalar (self : Matrix α) (x : α) : Option (Matrix α) :=
  self.setByScalar x

/-- `Matrix<Type>::size`. -/
def size (self : Matrix α) : Nat := self.nTotal

/-- `Matrix<Type>::rows`. -/
def rows (self : Matrix α) : Nat := self.nRow

/-- `Matrix<Type>::cols`. -/
def cols (self : Matrix α) : Nat := self.nColumn

/-- `Matrix<Type>::resize`. -/
def resize (self : Matrix α) (rows columns : Nat) : Matrix α :=
  if rows = self.nRow ∧ columns = self.nColumn then self
  else (self.destroy).init rows columns

/-- `operator[]`: the row pointer `prow0[i]`. It is a pointer into the buffer exactly when `i`
is inside the row-pointer array, which for a matrix built by `init` is the range `i < nRow`;
outside it the word read is indeterminate (`none`). -/
def row (self : Matrix α) (i : Nat) : Option Int :=
  self.prow0.read i

/-- The row pointer `prow1[row]`, read through the displaced pointer `prow1`. -/
def row1 (self : Matrix α) (row : Nat) : Option Int :=
  self.prow1.read (self.prow1Off + row)

/-- The address `&M[i][j]`, as an offset into the buffer (indeterminate when the row pointer
is). -/
def addr0 (self : Matrix α) (i j : Nat) : Option Int :=
  (self.row i).map fun p => p + j

/-- The address `&M(row, column)`, that is `&prow1[row][column]`. -/
def addr1 (self : Matrix α) (row column : Nat) : Option Int :=
  (self.row1 row).map fun p => p + column

/-- The read `*p` of an element of the buffer; an indeterminate cell has no value. -/
def load (self : Matrix α) (p : Int) : Option α :=
  (self.pv0.read p).join

/-- The write `*p = x` of an element of the buffer. -/
def store (self : Matrix α) (p : Int) (x : α) : Option (Matrix α) :=
  (self.pv0.write p (some x)).map fun q => { self with pv0 := q }

/-- The read `M[i][j]`. -/
def get (self : Matrix α) (i j : Nat) : Option α :=
  (self.addr0 i j).bind self.load

/-- The write `M[i][j] = x`. -/
def set (self : Matrix α) (i j : Nat) (x : α) : Option (Matrix α) :=
  (self.addr0 i j).bind fun p => self.store p x

/-- The read `M(row, column)` of `operator()`. -/
def get1 (self : Matrix α) (row column : Nat) : Option α :=
  (self.addr1 row column).bind self.load

/-- Modelled from the spec: the construction `Matrix<Type> tmp(rows, columns)` uses the default
third argument of the constructor, which is declared in `matrix.h` (not under `src/`); the
spec has such a matrix zero-initialised (§4.5, `eye`). -/
def zeros [Zero α] (rows columns : Nat) : Option (Matrix α) :=
  fill rows columns 0

end Matrix

section Products

variable {α : Type} [Zero α] [Add α] [Mul α]

/-- The innermost loop of the kernel `prod(A, B, C)`: `K` rounds of
`sum += (*pRow) * (*pCol); pRow++; pCol += N` on the state `(sum, pRow, pCol)`. A pointer
is `none` when it is indeterminate; dereferencing it then has no result, advancing it leaves
it indeterminate. -/
def prodDot (A B : Matrix α) (N K : Nat) (s : α × Option Int × Option Int) :
    Option (α × Option Int × Option Int) :=
  forLoop 0 K
    (fun _ s => (s.2.1.bind A.load).bind fun a => (s.2.2.bind B.load).bind fun b =>
      some (s.1 + a * b, s.2.1.map fun p => p + 1, s.2.2.map fun p => p + N))
    s

/-- The kernel `prod(const Matrix &A, const Matrix &B, Matrix &C)` with a destination `C`
distinct from `A` and `B`. The pointers `pRow = &A[i][0]` and `pCol = &B[0][j]` are formed
before the `k`-loop and dereferenced only inside it. -/
def prodInto (A B C : Matrix α) : Option (Matrix α) :=
  let M := A.rows
  let N := B.cols
  let K := A.cols
  if B.rows = K then
    forLoop 0 M
      (fun i C => forLoop 0 N
        (fun j C =>
          let pRow := A.addr0 i 0
          let pCol := B.addr0 0 j
          (prodDot A B N K (0, pRow, pCol)).bind fun s =>
          C.set i j s.1)
        C)
      (C.resize M N)
  else none

/-- The convenience form `prod(const Matrix &A1, const Matrix &A2)`. -/
def prod (A1 A2 : Matrix α) : Option (Matrix α) :=
  if A1.cols = A2.rows then
    (Matrix.zeros A1.rows A2.cols).bind fun tmp => prodInto A1 A2 tmp
  else none

/-- The innermost loop of `tranProd`: `sum += A1[k][i] * A2[k][j]` for `k < K`. -/
def tranProdDot (A1 A2 : Matrix α) (i j K : Nat) (sum : α) : Option α :=
  forLoop 0 K
    (fun k sum => (A1.get k i).bind fun a => (A2.get k j).bind fun b => some (sum + a * b))
    sum

/-- `tranProd(const Matrix &A1, const Matrix &A2)`, the product `transpose(A1) * A2`. -/
def tranProd (A1 A2 : Matrix α) : Option (Matrix α) :=
  if A1.rows = A2.rows then
    let rows := A1.cols
    let columns := A2.cols
    let K := A1.rows
    (Matrix.zeros rows columns).bind fun tmp =>
      forLoop 0 rows
        (fun i tmp => forLoop 0 columns
          (fun j tmp => (tranProdDot A1 A2 i j K 0).bind fun sum => tmp.set i j sum)
          tmp)
        tmp
  else none

end Products

section Utilities

variable {α : Type} [Zero α]

/-- `transpose(const Matrix &A)`. -/
def transpose (A : Matrix α) : Option (Matrix α) :=
  let rows := A.cols
  let clumns := A.rows
  (Matrix.zeros rows clumns).bind fun tmp =>
    forLoop 0 rows
      (fun i tmp => forLoop 0 clumns
        (fun j tmp => (A.get j i).bind fun x => tmp.set i j x)
        tmp)
      tmp

/-- `eye(int N, Type x)`. -/
def eye (N : Nat) (x : α) : Option (Matrix α) :=
  (Matrix.zeros N N).bind fun tmp =>
    forLoop 0 N (fun i tmp => tmp.set i i x) tmp

end Utilities

section Inverse

variable {α : Type} [LinearOrderedField α]

/-- The pivot search of `inverse` at step `k`: `index[k] = k`, `max = invA[k][k]`, then for
`i = k+1 .. rows-1` the candidate `tmp = abs(invA[i][k])` replaces `max` (and `i` is recorded
in `index[k]`) when `tmp > max`. The state is `(max, index[k])`. -/
def pivotSearch (invA : Matrix α) (rows k : Nat) : Option (α × Nat) :=
  (invA.get k k).bind fun max =>
    forLoop (k + 1) rows
      (fun i s => (invA.get i k).bind fun x =>
        let tmp := |x|
        if tmp > s.1 then some (tmp, i) else some s)
      (max, k)

/-- The row exchange of `inverse`: rows `k` and `p` are swapped, column by column. -/
def swapRows (invA : Matrix α) (rows k p : Nat) : Option (Matrix α) :=
  forLoop 0 rows
    (fun j m => (m.get k j).bind fun tmp => (m.get p j).bind fun x =>
      (m.set k j x).bind fun m => m.set p j tmp)
    invA

/-- The loop 'Calculating the kth column': `invA[i][k] = - invA[k][k]*invA[i][k]`, `i != k`. -/
def pivotColumn (invA : Matrix α) (rows k : Nat) : Option (Matrix α) :=
  forLoop 0 rows
    (fun i m => if i ≠ k then
        (m.get k k).bind fun d => (m.get i k).bind fun x => m.set i k (-d * x)
      else some m)
    invA

/-- The loops 'Calculating all elements excepting the kth row and column':
`invA[i][j] += invA[i][k] * invA[k][j]` for `i != k`, `j != k`. -/
def pivotInterior (invA : Matrix α) (rows k : Nat) : Option (Matrix α) :=
  forLoop 0 rows
    (fun i m => if i ≠ k then
        forLoop 0 rows
          (fun j m => if j ≠ k then
              (m.get i j).bind fun x => (m.get i k).bind fun c => (m.get k j).bind fun r =>
                m.set i j (x + c * r)
            else some m)
          m
      else some m)
    invA

/-- The loop 'Calculating the kth row': `invA[k][j] *= invA[k][k]`, `j != k`. -/
def pivotRow (invA : Matrix α) (rows k : Nat) : Option (Matrix α) :=
  forLoop 0 rows
    (fun j m => if j ≠ k then
        (m.get k j).bind fun x => (m.get k k).bind fun d => m.set k j (x * d)
      else some m)
    invA

/-- The elimination of step `k`: `invA[k][k] = 1/invA[k][k]`, then the column, the interior
and the row. -/
def pivotStep (invA : Matrix α) (rows k : Nat) : Option (Matrix α) :=
  (invA.get k k).bind fun d => (invA.set k k (1 / d)).bind fun m =>
    (pivotColumn m rows k).bind fun m => (pivotInterior m rows k).bind fun m =>
      pivotRow m rows k

/-- The column exchange of the last loop of `inverse`: columns `k` and `p` are swapped, row by
row. -/
def swapColumns (invA : Matrix α) (rows k p : Nat) : Option (Matrix α) :=
  forLoop 0 rows
    (fun i m => (m.get i k).bind fun tmp => (m.get i p).bind fun x =>
      (m.set i k x).bind fun m => m.set i p tmp)
    invA

/-- The loop 'Exchanging back' of `inverse`: for `k = 0 .. rows-1`, when `index[k] != k`,
columns `k` and `index[k]` are swapped. -/
def exchangeBack (invA : Matrix α) (rows : Nat) (index : List Nat) : Option (Matrix α) :=
  forLoop 0 rows
    (fun k m => index[k]?.bind fun p =>
      if p ≠ k then swapColumns m rows k p else some m)
    invA

/-- The main loop of `inverse` from step `k` with `n` steps left, followed by the exchange
loop. `index` is the `Vector<int>` of recorded pivot rows; a step whose pivot fails the test
`abs(max) < EPS` leaves the function with `Matrix<Type>(0,0)`. -/
def inverseFrom (EPS : α) (rows : Nat) : Nat → Nat → Matrix α → List Nat → Option (Matrix α)
  | 0, _, invA, index => exchangeBack invA rows index
  | n + 1, k, invA, index =>
    (pivotSearch invA rows k).bind fun s =>
      let index := index.set k s.2
      if |s.1| < EPS then Matrix.zeros 0 0
      else
        (if s.2 ≠ k then swapRows invA rows k s.2 else some invA).bind fun m =>
          (pivotStep m rows k).bind fun m => inverseFrom EPS rows n (k + 1) m index

/-- `inverse(const Matrix &A)`; `EPS` is the constant of the singularity test, which is
defined outside `matrix-impl.h`. -/
def inverse (EPS : α) (A : Matrix α) : Option (Matrix α) :=
  let rows := A.rows
  let clumns := A.cols
  if rows = clumns then
    A.copy.bind fun invA => inverseFrom EPS rows rows 0 invA (List.replicate rows 0)
  else none

end Inverse

namespace Matrix

variable {α : Type}

/-- The state in which `init` and the element writes leave a matrix of `r` rows and `c`
columns whose buffer holds `cells`. -/
def ofCells (r c : Nat) (cells : List (Option α)) : Matrix α :=
  { pv0 := Ptr.live cells
    prow0 := Ptr.live (initRows c r 0).1
    prow1 := Ptr.live (initRows c r 0).2
    prow1Off := 0 - 1
    nRow := r
    nColumn := c
    nTotal := r * c }

/-- The matrix of `r` rows and `c` columns whose element `[i][j]` is `g i j`, stored row by
row. -/
def ofFn (r c : Nat) (g : Nat → Nat → α) : Matrix α :=
  ofCells r c ((List.range (r * c)).map fun o => some (g (o / c) (o % c)))

/-- The element `M[i][j]` as a value, `0` where the read has no result. -/
def elem [Zero α] (M : Matrix α) (i j : Nat) : α :=
  (M.get i j).getD 0

/-- A matrix in the state the array constructor builds: `M` is `Matrix(rows, columns, a)` for
some array `a`. -/
def Valid (M : Matrix α) : Prop :=
  ∃ a : List α, ofArray M.nRow M.nColumn a = some M

end Matrix

/-- The grid `g` with the entry at `(i, j)` replaced by `x`. -/
def upd {α : Type} (g : Nat → Nat → α) (i j : Nat) (x : α) : Nat → Nat → α :=
  fun a b => if a = i ∧ b = j then x else g a b

/-- The matrix states reachable through the constructors, the copy assignment, the scalar
assignment and `resize`. -/
inductive Reachable {α : Type} : Matrix α → Prop where
  | new : Reachable Matrix.new
  | fill (rows columns : Nat) (x : α) (M : Matrix α) :
      Matrix.fill rows columns x = some M → Reachable M
  | ofArray (rows columns : Nat) (arrays : List α) (M : Matrix α) :
      Matrix.ofArray rows columns arrays = some M → Reachable M
  | copy (A M : Matrix α) : Reachable A → A.copy = some M → Reachable M
  | assign (S A M : Matrix α) (samePtr : Bool) :
      Reachable S → Reachable A → S.assign A samePtr = some M → Reachable M
  | assignScalar (S M : Matrix α) (x : α) :
      Reachable S → S.assignScalar x = some M → Reachable M
  | resize (S : Matrix α) (rows columns : Nat) : Reachable S → Reachable (S.resize rows columns)

/-- The sum of `f 0, f 1, ..., f (K-1)` accumulated from `0` in increasing index, as the
kernels accumulate it: `sum = 0; sum += f 0; sum += f 1; ...`. -/
def sumTo {α : Type} [Zero α] [Add α] (f : Nat → α) : Nat → α
  | 0 => 0
  | k + 1 => sumTo f k + f k

/-- The integer matrix `[[1,2],[3,4]]`. -/
def sampleA : Matrix Int := Matrix.ofCells 2 2 [some 1, some 2, some 3, some 4]

/-- The integer matrix `[[0,1,5],[2,0,7]]`. -/
def sampleB : Matrix Int := Matrix.ofCells 2 3 [some 0, some 1, some 5, some 2, some 0, some 7]

/-- The integer matrix `[[1],[2],[3]]`. -/
def sampleC : Matrix Int := Matrix.ofCells 3 1 [some 1, some 2, some 3]

/-- The integer matrix with `r` rows and `c` columns and no element, `r = 0` or `c = 0`. -/
def emptyMatrix (r c : Nat) : Matrix Int := Matrix.ofCells r c []

/-- The grid `g` with rows `k` and `p` exchanged. -/
def gSwapRows {α : Type} (g : Nat → Nat → α) (k p : Nat) : Nat → Nat → α :=
  fun a b => if a = k then g p b else if a = p then g k b else g a b

/-- The grid `g` after the elimination of step `k` of `inverse`: the pivot becomes its
reciprocal `d = 1/g[k][k]`, column `k` becomes `-d*g[i][k]`, the interior
`g[i][j] + (-d*g[i][k])*g[k][j]`, and row `k` becomes `g[k][j]*d`. -/
def gPivot {α : Type} [Field α] (g : Nat → Nat → α) (k : Nat) : Nat → Nat → α :=
  fun a b =>
    if a = k then (if b = k then 1 / g k k else g k b * (1 / g k k))
    else if b = k then -(1 / g k k) * g a k
    else g a b + -(1 / g k k) * g a k * g k b

/-- The invariant of the elimination loop of `inverse` before step `k`, for the input grid `A`
and the working grid `g` of order `n`: every vector `v` with `A v = 0` satisfies, in each row
`i`, the equation whose coefficients are the unit column `i` in the columns below `k` and
row `i` of `g` in the columns from `k` on. -/
def KerInv {α : Type} [Field α] (n : Nat) (A g : Nat → Nat → α) (k : Nat) : Prop :=
  ∀ v : Nat → α, (∀ i, i < n → ∑ j in Finset.range n, A i j * v j = 0) →
    ∀ i, i < n → (if i < k then v i else 0) + ∑ j in Finset.Ico k n, g i j * v j = 0

/-- The elements of `M` as a square matrix of order `n` of Mathlib. -/
def Matrix.toSquare {α : Type} [Zero α] (M : Matrix α) (n : Nat) : SquareMatrix n α :=
  fun i j => M.elem i j

/-- The rational matrix `[[1,2],[2,4]]`, whose second row is twice the first. -/
def singular2 : Matrix ℚ := Matrix.ofCells 2 2 [some 1, some 2, some 2, some 4]

/-- The rational matrix `[[4,3],[6,3]]`. -/
def scenarioA : Matrix ℚ := Matrix.ofCells 2 2 [some 4, some 3, some 6, some 3]

/-- The rational matrix `[[-1/2, 1/2],[1, -2/3]]`. -/
def scenarioInv : Matrix ℚ :=
  Matrix.ofCells 2 2 [some (-1 / 2), some (1 / 2), some 1, some (-2 / 3)]

/-- The rational matrix `[[1,0],[0,1]]`. -/
def identity2 : Matrix ℚ := Matrix.ofCells 2 2 [some 1, some 0, some 0, some 1]

/-- The rational cyclic permutation matrix `[[0,1,0],[0,0,1],[1,0,0]]`. -/
def cyclic3 : Matrix ℚ :=
  Matrix.ofCells 3 3 [some 0, some 1, some 0, some 0, some 0, some 1, some 1, some 0, some 0]

/-- The transpose `[[0,0,1],[1,0,0],[0,1,0]]` of `cyclic3`, which is its inverse. -/
def cyclic3T : Matrix ℚ :=
  Matrix.ofCells 3 3 [some 0, some 0, some 1, some 1, some 0, some 0, some 0, some 1, some 0]

/-- The rational matrix `[[1,0,0],[0,1,0],[0,0,1]]`. -/
def identity3 : Matrix ℚ :=
  Matrix.ofCells 3 3 [some 1, some 0, some 0, some 0, some 1, some 0, some 0, some 0, some 1]

section Elementwise

variable {α : Type} [Zero α]

/-- The matrix-scalar addition `operator+(const Matrix &A, Type x)`. -/
def addScalar [Add α] (A : Matrix α) (x : α) : Option (Matrix α) :=
  let rows := A.rows
  let columns := A.cols
  (Matrix.zeros rows columns).bind fun tmp =>
    forLoop 0 rows
      (fun i tmp => forLoop 0 columns
        (fun j tmp => (A.get i j).bind fun a => tmp.set i j (a + x))
        tmp)
      tmp

/-- The matrix-scaling multiplication `operator*(const Matrix &A, Type x)`. -/
def mulScalar [Mul α] (A : Matrix α) (x : α) : Option (Matrix α) :=
  let rows := A.rows
  let clumns := A.cols
  (Matrix.zeros rows clumns).bind fun tmp =>
    forLoop 0 rows
      (fun i tmp => forLoop 0 clumns
        (fun j tmp => (A.get i j).bind fun a => tmp.set i j (a * x))
        tmp)
      tmp

/-- The matrix-matrix subtraction `operator-(const Matrix &A1, const Matrix &A2)`, with its
two assertions on the dimensions. -/
def subMatrix [Sub α] (A1 A2 : Matrix α) : Option (Matrix α) :=
  let rows := A1.rows
  let columns := A1.cols
  if rows = A2.rows ∧ columns = A2.cols then
    (Matrix.zeros rows columns).bind fun tmp =>
      forLoop 0 rows
        (fun i tmp => forLoop 0 columns
          (fun j tmp => (A1.get i j).bind fun a => (A2.get i j).bind fun b =>
            tmp.set i j (a - b))
          tmp)
        tmp
  else none

end Elementwise

/-- Modelled from the spec: `Vector<Type>`, whose header is not under `src/`. The spec has it
own one contiguous buffer into which the 0-based and the 1-based access both map, with
`size()`/`dim()` and `resize(n)`. A cell is an `Option` as in `Matrix`: `none` is a cell not
yet written. -/
structure Vector (α : Type) where
  pv0 : List (Option α)
deriving DecidableEq

namespace Vector

variable {α : Type}

/-- Modelled from the spec: the construction `Vector<Type> tmp(n)`, a vector of `n` cells. -/
def create (n : Nat) : Vector α := ⟨List.replicate n none⟩

/-- Modelled from the spec: `size()`, the number of elements. -/
def size (v : Vector α) : Nat := v.pv0.length

/-- Modelled from the spec: `dim()`, the number of elements. -/
def dim (v : Vector α) : Nat := v.pv0.length

/-- Modelled from the spec: `resize(n)`, which keeps the vector when it already has `n`
elements and gives it `n` fresh cells otherwise. -/
def resize (v : Vector α) (n : Nat) : Vector α :=
  if n = v.size then v else create n

/-- Modelled from the spec: the read `*p` of the cell at offset `p` of the buffer (a cell
outside the buffer or not yet written has no value). -/
def load (v : Vector α) (p : Int) : Option α :=
  if 0 ≤ p then v.pv0[p.toNat]?.join else none

/-- Modelled from the spec: the 0-based read `v[i]`. -/
def get (v : Vector α) (i : Nat) : Option α :=
  v.load i

/-- Modelled from the spec: the 0-based write `v[i] = x`. -/
def set (v : Vector α) (i : Nat) (x : α) : Option (Vector α) :=
  if i < v.pv0.length then some ⟨v.pv0.set i (some x)⟩ else none

/-- Modelled from the spec: the 1-based read `v(i)`, the cell at offset `i - 1`. -/
def get1 (v : Vector α) (i : Nat) : Option α :=
  v.load ((i : Int) - 1)

/-- Modelled from the spec: the 1-based write `v(i) = x`, to the cell at offset `i - 1`. -/
def set1 (v : Vector α) (i : Nat) (x : α) : Option (Vector α) :=
  if 1 ≤ i then v.set (i - 1) x else none

/-- The vector holding the elements of `l`. -/
def ofList (l : List α) : Vector α := ⟨l.map some⟩

/-- The vector of `n` elements whose element `[i]` is `g i`. -/
def ofFn (n : Nat) (g : Nat → α) : Vector α := ⟨(List.range n).map fun i => some (g i)⟩

/-- The element `v[i]` as a value, `0` where the read has no result. -/
def elem [Zero α] (v : Vector α) (i : Nat) : α := (v.get i).getD 0

/-- A vector all of whose cells hold an element. -/
def Valid (v : Vector α) : Prop := ∃ l : List α, v = ofList l

end Vector

namespace Matrix

variable {α : Type}

/-- `Matrix<Type>::getRow`: `tmp(j) = prow1[row][j]` for `j = 1 .. nColumn`. -/
def getRow (self : Matrix α) (row : Nat) : Option (Vector α) :=
  forLoop 1 (self.nColumn + 1)
    (fun j tmp => (self.get1 row j).bind fun x => tmp.set1 j x)
    (Vector.create self.nColumn)

/-- `Matrix<Type>::setRow`: `prow1[row][j] = v(j)` for `j = 1 .. nColumn`. -/
def setRow (self : Matrix α) (v : Vector α) (row : Nat) : Option (Matrix α) :=
  forLoop 1 (self.nColumn + 1)
    (fun j m => (v.get1 j).bind fun x => (m.addr1 row j).bind fun p => m.store p x)
    self

end Matrix

section VectorRoutines

variable {α : Type} [Zero α]

/-- `diag(const Matrix &A)`: the first `min(rows, cols)` diagonal entries. -/
def diag (A : Matrix α) : Option (Vector α) :=
  let nColumn := if A.rows > A.cols then A.cols else A.rows
  forLoop 0 nColumn (fun i tmp => (A.get i i).bind fun x => tmp.set i x) (Vector.create nColumn)

/-- The inner loop of `prod(A, b, c)`: `N` rounds of `sum += (*pRow) * (*pCol); pRow++; pCol++`
on the state `(sum, pRow, pCol)`. -/
def prodVecDot [Add α] [Mul α] (A : Matrix α) (b : Vector α) (N : Nat) (s : α × Int × Int) :
    Option (α × Int × Int) :=
  forLoop 0 N
    (fun _ s => (A.load s.2.1).bind fun a => (b.load s.2.2).bind fun x =>
      some (s.1 + a * x, s.2.1 + 1, s.2.2 + 1))
    s

/-- The kernel `prod(const Matrix &A, const Vector &b, Vector &c)`. The pointer `pCol = &b[0]`
is offset `0` of the buffer of `b`; forming it reads nothing. -/
def prodVecInto [Add α] [Mul α] (A : Matrix α) (b c : Vector α) : Option (Vector α) :=
  let M := A.rows
  let N := A.cols
  if b.size = N then
    forLoop 0 M
      (fun i c =>
        (A.addr0 i 0).bind fun pRow =>
        (prodVecDot A b N (0, pRow, 0)).bind fun s =>
        c.set i s.1)
      (c.resize M)
  else none

/-- The convenience form `prod(const Matrix &A, const Vector &b)`. -/
def prodVec [Add α] [Mul α] (A : Matrix α) (b : Vector α) : Option (Vector α) :=
  if A.cols = b.dim then prodVecInto A b (Vector.create A.rows) else none

/-- The inner loop of `tranProd(A, v)`: `sum += A[j][i] * v[j]` for `j < rows`. -/
def tranProdVecDot [Add α] [Mul α] (A : Matrix α) (v : Vector α) (i rows : Nat) (sum : α) :
    Option α :=
  forLoop 0 rows
    (fun j sum => (A.get j i).bind fun a => (v.get j).bind fun x => some (sum + a * x))
    sum

/-- `tranProd(const Matrix &A, const Vector &v)`, the product `transpose(A) * v`. -/
def tranProdVec [Add α] [Mul α] (A : Matrix α) (v : Vector α) : Option (Vector α) :=
  if A.rows = v.dim then
    let rows := A.rows
    let columns := A.cols
    forLoop 0 columns
      (fun i tmp => (tranProdVecDot A v i rows 0).bind fun sum => tmp.set i sum)
      (Vector.create columns)
  else none

end VectorRoutines

section InverseTrace

variable {α : Type} [LinearOrderedField α]

/-- The main loop of `inverse` alone, from step `k` with `n` steps left: the working matrix
and the vector `index` of recorded pivot rows when every step passed the singularity test,
`none` when a step failed it (where `inverse` returns `Matrix<Type>(0,0)`). -/
def inverseSteps (EPS : α) (rows : Nat) :
    Nat → Nat → Matrix α → List Nat → Option (Option (Matrix α × List Nat))
  | 0, _, invA, index => some (some (invA, index))
  | n + 1, k, invA, index =>
    (pivotSearch invA rows k).bind fun s =>
      let index := index.set k s.2
      if |s.1| < EPS then some none
      else
        (if s.2 ≠ k then swapRows invA rows k s.2 else some invA).bind fun m =>
          (pivotStep m rows k).bind fun m => inverseSteps EPS rows n (k + 1) m index

/-- The pivot rows `index[0], ..., index[rows-1]` that `inverse(A)` has recorded when its main
loop ends with every step passed; no value when a step failed the singularity test. -/
def pivotRows (EPS : α) (A : Matrix α) : Option (List Nat) :=
  let rows := A.rows
  let clumns := A.cols
  if rows = clumns then
    (A.copy.bind fun invA => inverseSteps EPS rows rows 0 invA (List.replicate rows 0)).bind
      fun r => r.map fun p => p.2
  else none

end InverseTrace

/-- The invariant of the elimination loop of `inverse` before step `k` when no rows were
exchanged, for the input grid `A` and the working grid `g` of order `n`: for every vector `x`
with image `y = A x`, row `i` of `g` relates the unknowns `x[k..]` and the images `y[..k]`:
`[i < k] x[i] + sum over j >= k of g[i][j]*x[j] = sum over j < k of g[i][j]*y[j] + [k <= i] y[i]`. -/
def FullInv {α : Type} [Field α] (n : Nat) (A g : Nat → Nat → α) (k : Nat) : Prop :=
  ∀ x : Nat → α, ∀ i, i < n →
    (if i < k then x i else 0) + ∑ j in Finset.Ico k n, g i j * x j =
      ∑ j in Finset.range k, g i j * (∑ m in Finset.range n, A j m * x m) +
        (if k ≤ i then ∑ m in Finset.range n, A i m * x m else 0)

/-- The rational matrix `[[2,1],[1,1]]`, on which `inverse` exchanges no rows. -/
def dominant2 : Matrix ℚ := Matrix.ofCells 2 2 [some 2, some 1, some 1, some 1]

/-- The rational matrix `[[-5,0],[1,1]]`, whose first diagonal entry is negative. -/
def negPivot2 : Matrix ℚ := Matrix.ofCells 2 2 [some (-5), some 0, some 1, some 1]

/-- The rational matrix `[[-1,0],[0,-1]]`, which is `eye(2, -1)`. -/
def negIdentity2 : Matrix ℚ := Matrix.ofCells 2 2 [some (-1), some 0, some 0, some (-1)]

/-- The matrix states reachable through the default constructor, the constructors
`(rows, columns, value)` and `(rows, columns, array)`, copy construction, copy assignment,
`resize` and `destroy`. -/
inductive ReachableD {α : Type} : Matrix α → Prop where
  | new : ReachableD Matrix.new
  | fill (rows columns : Nat) (x : α) (M : Matrix α) :
      Matrix.fill rows columns x = some M → ReachableD M
  | ofArray (rows columns : Nat) (arrays : List α) (M : Matrix α) :
      Matrix.ofArray rows columns arrays = some M → ReachableD M
  | copy (A M : Matrix α) : ReachableD A → A.copy = some M → ReachableD M
  | assign (S A M : Matrix α) (samePtr : Bool) :
      ReachableD S → ReachableD A → S.assign A samePtr = some M → ReachableD M
  | resize (S : Matrix α) (rows columns : Nat) : ReachableD S → ReachableD (S.resize rows columns)
  | destroy (S : Matrix α) : ReachableD S → ReachableD S.destroy

/-! ## Lemmas and theorems -/

theorem loopFrom_inv {σ : Type} (body : Nat → σ → Option σ) (P : Nat → σ → Prop) :
    ∀ (n i : Nat) (s : σ), P i s →
      (∀ j t, i ≤ j → j < i + n → P j t → ∃ t', body j t = some t' ∧ P (j + 1) t') →
      ∃ s', loopFrom body i n s = some s' ∧ P (i + n) s' := by
  intro n
  induction n with
  | zero => intro i s h _; exact ⟨s, rfl, h⟩
  | succ n ih =>
    intro i s h hstep
    obtain ⟨t, ht, hP⟩ := hstep i s (le_refl _) (by omega) h
    obtain ⟨s', hs', hP'⟩ := ih (i + 1) t hP (fun j u hj hlt hu => hstep j u (by omega) (by omega) hu)
    refine ⟨s', ?_, ?_⟩
    · simp [loopFrom, ht, hs']
    · have : i + (n + 1) = i + 1 + n := by omega
      rw [this]; exact hP'

theorem loopFrom_add {σ : Type} (body : Nat → σ → Option σ) :
    ∀ (n1 n2 i : Nat) (s : σ),
      loopFrom body i (n1 + n2) s = (loopFrom body i n1 s).bind (loopFrom body (i + n1) n2) := by
  intro n1
  induction n1 with
  | zero => intro n2 i s; simp [loopFrom]
  | succ n ih =>
    intro n2 i s
    have h : n + 1 + n2 = (n + n2) + 1 := by omega
    rw [h]
    simp only [loopFrom]
    cases hb : body i s with
    | none => simp
    | some t =>
      simp only [Option.some_bind]
      rw [ih n2 (i + 1) t]
      have : i + 1 + n = i + (n + 1) := by omega
      rw [this]

theorem forLoop_inv {σ : Type} (body : Nat → σ → Option σ) (P : Nat → σ → Prop)
    (lo hi : Nat) (hle : lo ≤ hi) (s : σ) (h0 : P lo s)
    (hstep : ∀ j t, lo ≤ j → j < hi → P j t → ∃ t', body j t = some t' ∧ P (j + 1) t') :
    ∃ s', forLoop lo hi body s = some s' ∧ P hi s' := by
  obtain ⟨s', h1, h2⟩ := loopFrom_inv body P (hi - lo) lo s h0
    (fun j t hj hlt hP => hstep j t hj (by omega) hP)
  refine ⟨s', h1, ?_⟩
  have : lo + (hi - lo) = hi := by omega
  rw [this] at h2; exact h2

theorem forLoop_empty {σ : Type} (body : Nat → σ → Option σ) (lo hi : Nat) (h : hi ≤ lo) (s : σ) :
    forLoop lo hi body s = some s := by
  have : hi - lo = 0 := by omega
  simp [forLoop, this, loopFrom]

theorem initRows_eq (c : Nat) : ∀ (n : Nat) (p : Int),
    initRows c n p =
      ((List.range n).map (fun i : Nat => p + (i : Int) * c),
       (List.range n).map (fun i : Nat => p + (i : Int) * c - 1)) := by
  intro n
  induction n with
  | zero => intro p; simp [initRows]
  | succ n ih =>
    intro p
    simp only [initRows, ih, List.range_succ_eq_map, List.map_cons, List.map_map]
    refine Prod.ext ?_ ?_
    · simp only [Nat.cast_zero, zero_mul, add_zero, List.cons.injEq, true_and]
      apply List.map_congr_left
      intro i _
      simp only [Function.comp, Nat.cast_succ]
      ring
    · simp only [Nat.cast_zero, zero_mul, add_zero, List.cons.injEq, true_and]
      apply List.map_congr_left
      intro i _
      simp only [Function.comp, Nat.cast_succ]
      ring

theorem Ptr.read_live_map {β : Type} (n : Nat) (f : Nat → β) (i : Nat) (h : i < n) :
    (Ptr.live ((List.range n).map f)).read (i : Int) = some (f i) := by
  simp [Ptr.read, h]

theorem Ptr.read_live_nat {β : Type} (cells : List β) (i : Nat) :
    (Ptr.live cells).read (i : Int) = cells[i]? := by
  simp [Ptr.read]

theorem Ptr.write_live_nat {β : Type} (cells : List β) (i : Nat) (v : β) (h : i < cells.length) :
    (Ptr.live cells).write (i : Int) v = some (Ptr.live (cells.set i v)) := by
  simp [Ptr.write, h]

namespace Matrix

variable {α : Type}

theorem ofFn_congr (r c : Nat) (g g' : Nat → Nat → α)
    (h : ∀ i j, i < r → j < c → g i j = g' i j) : ofFn r c g = ofFn r c g' := by
  unfold ofFn
  congr 1
  apply List.map_congr_left
  intro o ho
  rw [List.mem_range] at ho
  have hc : 0 < c := by
    rcases Nat.eq_zero_or_pos c with h0 | h0
    · subst h0; simp at ho
    · exact h0
  rw [h (o / c) (o % c) (by rw [Nat.div_lt_iff_lt_mul hc]; exact ho) (Nat.mod_lt _ hc)]

theorem index_lt {rows cols i j : Nat} (hrow : i < rows) (hcol : j < cols) :
    i * cols + j < rows * cols := by
  have h := Nat.mul_le_mul_right cols (Nat.succ_le_of_lt hrow)
  rw [Nat.succ_mul] at h
  omega

theorem index_div {c i j : Nat} (hj : j < c) : (i * c + j) / c = i := by
  have hc : 0 < c := by omega
  rw [Nat.add_comm, Nat.add_mul_div_right _ _ hc, Nat.div_eq_of_lt hj, Nat.zero_add]

theorem index_mod {c i j : Nat} (hj : j < c) : (i * c + j) % c = j := by
  rw [Nat.add_comm, Nat.add_mul_mod_self_right, Nat.mod_eq_of_lt hj]

theorem row_ofCells (r c : Nat) (cells : List (Option α)) (i : Nat) (hi : i < r) :
    (ofCells r c cells).row i = some ((i : Int) * c) := by
  simp [row, ofCells, initRows_eq, Ptr.read, hi]

theorem row_ofCells_none (r c : Nat) (cells : List (Option α)) (i : Nat) (hi : r ≤ i) :
    (ofCells r c cells).row i = none := by
  simp [row, ofCells, initRows_eq, Ptr.read, hi]

theorem addr0_ofCells (r c : Nat) (cells : List (Option α)) (i j : Nat) (hi : i < r) :
    (ofCells r c cells).addr0 i j = some (((i * c + j : Nat) : Int)) := by
  simp [addr0, row_ofCells r c cells i hi]

theorem load_ofCells (r c : Nat) (cells : List (Option α)) (o : Nat) :
    (ofCells r c cells).load (o : Int) = cells[o]?.join := by
  simp [load, ofCells, Ptr.read]

theorem store_ofCells (r c : Nat) (cells : List (Option α)) (o : Nat) (x : α)
    (h : o < cells.length) :
    (ofCells r c cells).store (o : Int) x = some (ofCells r c (cells.set o (some x))) := by
  simp [store, ofCells, Ptr.write, h]

theorem load_ofFn (r c : Nat) (g : Nat → Nat → α) (i j : Nat) (hi : i < r) (hj : j < c) :
    (ofFn r c g).load ((i * c + j : Nat) : Int) = some (g i j) := by
  rw [ofFn, load_ofCells]
  simp [index_lt hi hj, index_div hj, index_mod hj]

theorem get_ofFn (r c : Nat) (g : Nat → Nat → α) (i j : Nat) (hi : i < r) (hj : j < c) :
    (ofFn r c g).get i j = some (g i j) := by
  have h := load_ofFn r c g i j hi hj
  rw [get, ofFn, addr0_ofCells r c _ i j hi]
  exact h

theorem set_ofFn (r c : Nat) (g : Nat → Nat → α) (i j : Nat) (x : α) (hi : i < r) (hj : j < c) :
    (ofFn r c g).set i j x = some (ofFn r c (upd g i j x)) := by
  rw [set, ofFn, addr0_ofCells r c _ i j hi]
  simp only [Option.some_bind]
  rw [store_ofCells _ _ _ _ _ (by simpa using index_lt hi hj)]
  simp only [ofFn, Option.some.injEq]
  congr 1
  apply List.ext_getElem
  · simp
  · intro o h1 h2
    simp only [List.length_set, List.length_map, List.length_range] at h1
    have hc : 0 < c := by omega
    rw [List.getElem_set]
    by_cases ho : i * c + j = o
    · subst ho
      simp [upd, index_div hj, index_mod hj]
    · simp only [ho, if_false, List.getElem_map, List.getElem_range, upd, Option.some.injEq]
      have : ¬ (o / c = i ∧ o % c = j) := by
        rintro ⟨h3, h4⟩
        apply ho
        rw [← h3, ← h4]
        exact Nat.div_add_mod' o c
      simp [this]

theorem elem_ofFn [Zero α] (r c : Nat) (g : Nat → Nat → α) (i j : Nat) (hi : i < r) (hj : j < c) :
    (ofFn r c g).elem i j = g i j := by
  simp [elem, get_ofFn r c g i j hi hj]

theorem rows_ofFn (r c : Nat) (g : Nat → Nat → α) : (ofFn r c g).rows = r := rfl

theorem cols_ofFn (r c : Nat) (g : Nat → Nat → α) : (ofFn r c g).cols = c := rfl

theorem init_eq (m : Matrix α) (r c : Nat) :
    m.init r c = ofCells r c (List.replicate (r * c) none) := rfl

theorem copyFromArray_ofCells (r c : Nat) (cells src : List (Option α))
    (hlen : cells.length = r * c) (hsrc : r * c ≤ src.length) :
    (ofCells r c cells).copyFromArray (Ptr.live src) = some (ofCells r c (src.take (r * c))) := by
  obtain ⟨s', h1, cells', h2, h3, h4⟩ := forLoop_inv
    (fun i m => ((Ptr.live src).read i).bind fun x =>
      (m.pv0.write i x).map fun p => { m with pv0 := p })
    (fun j m => ∃ cells' : List (Option α), m = ofCells r c cells' ∧ cells'.length = r * c ∧
      ∀ t, t < j → cells'[t]? = src[t]?)
    0 (r * c) (Nat.zero_le _) (ofCells r c cells) ⟨cells, rfl, hlen, by intro t ht; omega⟩
    (by
      rintro j t _ hj ⟨cells', rfl, hl, hc⟩
      have hj' : j < src.length := by omega
      refine ⟨ofCells r c (cells'.set j src[j]), ?_, cells'.set j src[j], rfl, by simpa using hl, ?_⟩
      · show ((Ptr.live src).read (j : Int)).bind _ = _
        rw [Ptr.read_live_nat, List.getElem?_eq_getElem hj']
        simp only [Option.some_bind, ofCells]
        rw [Ptr.write_live_nat _ _ _ (by omega)]
        rfl
      · intro u hu
        rw [List.getElem?_set]
        by_cases hju : j = u
        · subst hju; simp [hl, hj, List.getElem?_eq_getElem hj']
        · simp only [hju, if_false]; exact hc u (by omega))
  have : cells' = src.take (r * c) := by
    apply List.ext_getElem?
    intro t
    by_cases ht : t < r * c
    · rw [h4 t ht, List.getElem?_take_of_lt ht]
    · rw [List.getElem?_eq_none (by omega), List.getElem?_eq_none (by simp; omega)]
  subst this
  subst h2
  exact h1

theorem copyFromArray_short (r c : Nat) (cells src : List (Option α))
    (hlen : cells.length = r * c) (hsrc : src.length < r * c) :
    (ofCells r c cells).copyFromArray (Ptr.live src) = none := by
  have hsplit : r * c = src.length + ((r * c - src.length - 1) + 1) := by omega
  obtain ⟨s', h1, -⟩ := loopFrom_inv
    (fun i m => ((Ptr.live src).read i).bind fun x =>
      (m.pv0.write i x).map fun p => { m with pv0 := p })
    (fun _ m => ∃ cells' : List (Option α), m = ofCells r c cells' ∧ cells'.length = r * c)
    src.length 0 (ofCells r c cells) ⟨cells, rfl, hlen⟩
    (by
      rintro j t _ hj ⟨cells', rfl, hl⟩
      have hj' : j < src.length := by omega
      refine ⟨ofCells r c (cells'.set j src[j]), ?_, cells'.set j src[j], rfl, by simpa using hl⟩
      show ((Ptr.live src).read (j : Int)).bind _ = _
      rw [Ptr.read_live_nat, List.getElem?_eq_getElem hj']
      simp only [Option.some_bind, ofCells]
      rw [Ptr.write_live_nat _ _ _ (by omega)]
      rfl)
  show forLoop 0 (r * c) _ _ = none
  unfold forLoop
  rw [Nat.sub_zero, hsplit, loopFrom_add, h1]
  simp only [Option.some_bind, loopFrom, Nat.zero_add]
  rw [Ptr.read_live_nat, List.getElem?_eq_none (le_refl _)]
  rfl

theorem setByScalar_ofCells (r c : Nat) (cells : List (Option α)) (x : α)
    (hlen : cells.length = r * c) :
    (ofCells r c cells).setByScalar x = some (ofFn r c fun _ _ => x) := by
  obtain ⟨s', h1, cells', h2, h3, h4⟩ := forLoop_inv
    (fun i (m : Matrix α) => (m.pv0.write i (some x)).map fun p => { m with pv0 := p })
    (fun j m => ∃ cells' : List (Option α), m = ofCells r c cells' ∧ cells'.length = r * c ∧
      ∀ t, t < j → cells'[t]? = some (some x))
    0 (r * c) (Nat.zero_le _) (ofCells r c cells) ⟨cells, rfl, hlen, by intro t ht; omega⟩
    (by
      rintro j t _ hj ⟨cells', rfl, hl, hc⟩
      refine ⟨ofCells r c (cells'.set j (some x)), ?_, cells'.set j (some x), rfl,
        by simpa using hl, ?_⟩
      · show Option.map _ ((ofCells r c cells').pv0.write (j : Int) (some x)) = _
        simp only [ofCells]
        rw [Ptr.write_live_nat _ _ _ (by omega)]
        rfl
      · intro u hu
        rw [List.getElem?_set]
        by_cases hju : j = u
        · subst hju; simp [hl, hj]
        · simp only [hju, if_false]; exact hc u (by omega))
  have : cells' = (List.range (r * c)).map fun _ => some x := by
    apply List.ext_getElem?
    intro t
    by_cases ht : t < r * c
    · rw [h4 t ht]; simp [ht]
    · rw [List.getElem?_eq_none (by omega), List.getElem?_eq_none (by simp; omega)]
  subst this
  subst h2
  exact h1

theorem fill_eq (r c : Nat) (x : α) : fill r c x = some (ofFn r c fun _ _ => x) := by
  rw [fill, init_eq]
  exact setByScalar_ofCells r c _ x (by simp)

theorem zeros_eq [Zero α] (r c : Nat) : (zeros r c : Option (Matrix α)) = some (ofFn r c fun _ _ => 0) :=
  fill_eq r c 0

theorem ofArray_eq [Zero α] (r c : Nat) (a : List α) (h : r * c ≤ a.length) :
    ofArray r c a = some (ofFn r c fun i j => a.getD (i * c + j) 0) := by
  rw [ofArray, init_eq, copyFromArray_ofCells r c _ _ (by simp) (by simpa using h)]
  simp only [ofFn, Option.some.injEq]
  congr 1
  apply List.ext_getElem
  · simp; omega
  · intro o h1 h2
    simp only [List.length_map, List.length_range] at h2
    have hc : 0 < c := by
      rcases Nat.eq_zero_or_pos c with h0 | h0
      · subst h0; simp at h2
      · exact h0
    have ho : o < a.length := by omega
    simp [Nat.div_add_mod', List.getElem?_eq_getElem ho]

theorem copy_ofFn (r c : Nat) (g : Nat → Nat → α) : (ofFn r c g).copy = some (ofFn r c g) := by
  have h := copyFromArray_ofCells r c (List.replicate (r * c) none)
    ((List.range (r * c)).map fun o => some (g (o / c) (o % c))) (by simp) (by simp)
  rw [List.take_of_length_le (by simp)] at h
  exact h

theorem valid_ofFn (r c : Nat) (g : Nat → Nat → α) : (ofFn r c g).Valid := by
  refine ⟨(List.range (r * c)).map fun o => g (o / c) (o % c), ?_⟩
  have h := copyFromArray_ofCells r c (List.replicate (r * c) none)
    ((List.range (r * c)).map fun o => some (g (o / c) (o % c))) (by simp) (by simp)
  rw [List.take_of_length_le (by simp)] at h
  show ofArray r c _ = _
  rw [ofArray, init_eq, List.map_map]
  exact h

theorem Valid.eq_ofFn [Zero α] {M : Matrix α} (h : M.Valid) :
    M = ofFn M.rows M.cols M.elem := by
  obtain ⟨a, ha⟩ := h
  by_cases hlen : M.nRow * M.nColumn ≤ a.length
  · rw [ofArray_eq _ _ _ hlen] at ha
    have hM : M = ofFn M.nRow M.nColumn fun i j => a.getD (i * M.nColumn + j) 0 :=
      (Option.some.inj ha).symm
    have hr : M.rows = M.nRow := rfl
    have hc : M.cols = M.nColumn := rfl
    rw [hr, hc]
    refine hM.trans (ofFn_congr _ _ _ _ ?_)
    intro i j hi hj
    have he := elem_ofFn M.nRow M.nColumn (fun i j => a.getD (i * M.nColumn + j) 0) i j hi hj
    rw [← hM] at he
    exact he.symm
  · rw [ofArray, init_eq, copyFromArray_short _ _ _ _ (by simp) (by simpa using hlen)] at ha
    exact absurd ha (by simp)

end Matrix

theorem loopFrom_preserve {σ : Type} (body : Nat → σ → Option σ) (P : σ → Prop)
    (hstep : ∀ j t t', body j t = some t' → P t → P t') :
    ∀ (n i : Nat) (s s' : σ), loopFrom body i n s = some s' → P s → P s' := by
  intro n
  induction n with
  | zero => intro i s s' h hP; simp only [loopFrom, Option.some.injEq] at h; exact h ▸ hP
  | succ n ih =>
    intro i s s' h hP
    simp only [loopFrom] at h
    cases hb : body i s with
    | none => rw [hb] at h; simp at h
    | some t =>
      rw [hb] at h
      exact ih (i + 1) t s' h (hstep i s t hb hP)

namespace Matrix

variable {α : Type}

theorem copyFromArray_dims (m m' : Matrix α) (v : Ptr (Option α))
    (h : m.copyFromArray v = some m') :
    m'.nRow = m.nRow ∧ m'.nColumn = m.nColumn ∧ m'.nTotal = m.nTotal := by
  refine loopFrom_preserve _
    (fun t : Matrix α => t.nRow = m.nRow ∧ t.nColumn = m.nColumn ∧ t.nTotal = m.nTotal)
    ?_ _ _ m m' h ⟨rfl, rfl, rfl⟩
  intro j t t' ht hP
  cases hr : v.read (j : Int) with
  | none => simp [hr] at ht
  | some x =>
    cases hw : t.pv0.write (j : Int) x with
    | none => simp [hr, hw] at ht
    | some p =>
      simp only [hr, hw, Option.some_bind, Option.map_some', Option.some.injEq] at ht
      subst ht
      exact hP

theorem setByScalar_dims (m m' : Matrix α) (x : α) (h : m.setByScalar x = some m') :
    m'.nRow = m.nRow ∧ m'.nColumn = m.nColumn ∧ m'.nTotal = m.nTotal := by
  refine loopFrom_preserve _
    (fun t : Matrix α => t.nRow = m.nRow ∧ t.nColumn = m.nColumn ∧ t.nTotal = m.nTotal)
    ?_ _ _ m m' h ⟨rfl, rfl, rfl⟩
  intro j t t' ht hP
  cases hw : t.pv0.write (j : Int) (some x) with
  | none => simp [hw] at ht
  | some p =>
    simp only [hw, Option.map_some', Option.some.injEq] at ht
    subst ht
    exact hP

theorem init_dims (m : Matrix α) (r c : Nat) :
    (m.init r c).nRow = r ∧ (m.init r c).nColumn = c ∧ (m.init r c).nTotal = r * c :=
  ⟨rfl, rfl, rfl⟩

theorem resize_dims (m : Matrix α) (r c : Nat) :
    (m.resize r c).nRow = r ∧ (m.resize r c).nColumn = c := by
  unfold resize
  split_ifs with h
  · exact ⟨h.1.symm, h.2.symm⟩
  · exact ⟨rfl, rfl⟩

end Matrix

theorem Reachable.size_eq {α : Type} {M : Matrix α} (h : Reachable M) :
    M.nTotal = M.nRow * M.nColumn := by
  induction h with
  | new => rfl
  | fill r c x M h =>
    obtain ⟨h1, h2, h3⟩ := Matrix.setByScalar_dims _ _ _ h
    rw [h1, h2, h3]; rfl
  | ofArray r c a M h =>
    obtain ⟨h1, h2, h3⟩ := Matrix.copyFromArray_dims _ _ _ h
    rw [h1, h2, h3]; rfl
  | copy A M _ h _ =>
    obtain ⟨h1, h2, h3⟩ := Matrix.copyFromArray_dims _ _ _ h
    rw [h1, h2, h3]; rfl
  | assign S A M b _ _ h ihS _ =>
    unfold Matrix.assign at h
    split_ifs at h with hb hd
    · simp only [Option.some.injEq] at h; subst h; exact ihS
    · obtain ⟨h1, h2, h3⟩ := Matrix.copyFromArray_dims _ _ _ h
      rw [h1, h2, h3]; exact ihS
    · obtain ⟨h1, h2, h3⟩ := Matrix.copyFromArray_dims _ _ _ h
      rw [h1, h2, h3]; rfl
  | assignScalar S M x _ h ih =>
    obtain ⟨h1, h2, h3⟩ := Matrix.setByScalar_dims _ _ _ h
    rw [h1, h2, h3]; exact ih
  | resize S r c _ ih =>
    unfold Matrix.resize
    split_ifs with h
    · exact ih
    · rfl

/-- C8. Indexing equivalence: in a matrix built by `init(rows, columns)`, for `i < rows` and
`j < columns` the 0-based access `M[i][j]` (through `prow0`) and the 1-based access
`M(i+1, j+1)` (through the shifted `prow1`) address the same cell of the buffer, the row-major
offset `i*columns + j`, which lies inside the buffer. -/
theorem index_equivalence {α : Type} (m : Matrix α) (rows columns i j : Nat)
    (hi : i < rows) (hj : j < columns) :
    (m.init rows columns).addr0 i j = some (((i * columns + j : Nat) : Int)) ∧
    (m.init rows columns).addr1 (i + 1) (j + 1) = some (((i * columns + j : Nat) : Int)) ∧
    i * columns + j < (m.init rows columns).size := by
  refine ⟨?_, ?_, ?_⟩
  · rw [Matrix.init_eq]; exact Matrix.addr0_ofCells _ _ _ i j hi
  · have h : ((0 : Int) - 1 + ((i + 1 : Nat) : Int)) = (i : Int) := by push_cast; ring
    simp only [Matrix.addr1, Matrix.row1, Matrix.init, initRows_eq, h]
    rw [Ptr.read_live_map _ _ _ hi]
    simp only [Option.map_some', Option.some.injEq]
    push_cast
    ring
  · exact Matrix.index_lt hi hj

/-- Witness of C8 on the 2-by-3 matrix: row 1, column 2, offset 5. -/
theorem index_equivalence_witness :
    1 < 2 ∧ 2 < 3 ∧
    ((Matrix.new : Matrix Int).init 2 3).addr0 1 2 = some (((1 * 3 + 2 : Nat) : Int)) ∧
    ((Matrix.new : Matrix Int).init 2 3).addr1 (1 + 1) (2 + 1) = some (((1 * 3 + 2 : Nat) : Int)) ∧
    1 * 3 + 2 < ((Matrix.new : Matrix Int).init 2 3).size :=
  ⟨by decide, by decide, index_equivalence Matrix.new 2 3 1 2 (by decide) (by decide)⟩

/-- C9. Dimension invariant: in every state reachable through the constructors, the copy
assignment, the scalar assignment and `resize`, `size() == rows() * cols()`; and after
`resize(r, c)` the matrix has `rows() == r` and `cols() == c`. -/
theorem dimension_invariant {α : Type} (M : Matrix α) (h : Reachable M) (r c : Nat) :
    M.size = M.rows * M.cols ∧ (M.resize r c).rows = r ∧ (M.resize r c).cols = c ∧
      (M.resize r c).size = (M.resize r c).rows * (M.resize r c).cols :=
  ⟨h.size_eq, (Matrix.resize_dims M r c).1, (Matrix.resize_dims M r c).2,
    (Reachable.resize M r c h).size_eq⟩

/-- Witness of C9 on the default-constructed matrix resized to 2 by 3. -/
theorem dimension_invariant_witness :
    Reachable (Matrix.new : Matrix Int) ∧
    (Matrix.new : Matrix Int).size = (Matrix.new : Matrix Int).rows * (Matrix.new : Matrix Int).cols ∧
    ((Matrix.new : Matrix Int).resize 2 3).rows = 2 ∧ ((Matrix.new : Matrix Int).resize 2 3).cols = 3 ∧
    ((Matrix.new : Matrix Int).resize 2 3).size =
      ((Matrix.new : Matrix Int).resize 2 3).rows * ((Matrix.new : Matrix Int).resize 2 3).cols :=
  ⟨Reachable.new, dimension_invariant Matrix.new Reachable.new 2 3⟩

/-- C10. `resize` to the current dimensions is a no-op: for `(r, c)` equal to
`(M.rows(), M.cols())` the whole state of `M` is unchanged, so are its dimensions and every
element. -/
theorem resize_same {α : Type} (M : Matrix α) (r c : Nat) (hr : r = M.rows) (hc : c = M.cols) :
    M.resize r c = M ∧ (M.resize r c).rows = M.rows ∧ (M.resize r c).cols = M.cols ∧
      ∀ i j, (M.resize r c).get i j = M.get i j := by
  have h : M.resize r c = M := by
    unfold Matrix.resize
    rw [if_pos ⟨hr, hc⟩]
  rw [h]
  exact ⟨rfl, rfl, rfl, fun _ _ => rfl⟩

/-- Witness of C10 on the 2-by-2 matrix `[[1,2],[3,4]]`. -/
theorem resize_same_witness :
    2 = sampleA.rows ∧ 2 = sampleA.cols ∧
    sampleA.resize 2 2 = sampleA ∧ (sampleA.resize 2 2).rows = sampleA.rows ∧
      (sampleA.resize 2 2).cols = sampleA.cols ∧
      ∀ i j, (sampleA.resize 2 2).get i j = sampleA.get i j :=
  ⟨rfl, rfl, resize_same sampleA 2 2 rfl rfl⟩

namespace Matrix

variable {α : Type}

theorem set_ofCells (r c : Nat) (cells : List (Option α)) (i j : Nat) (x : α)
    (hi : i < r) (hj : j < c) (hlen : cells.length = r * c) :
    (ofCells r c cells).set i j x = some (ofCells r c (cells.set (i * c + j) (some x))) := by
  rw [set, addr0_ofCells r c _ i j hi]
  simp only [Option.some_bind]
  rw [store_ofCells _ _ _ _ _ (by rw [hlen]; exact index_lt hi hj)]

theorem ofCells_eq_ofFn (r c : Nat) (cells : List (Option α)) (g : Nat → Nat → α)
    (hlen : cells.length = r * c)
    (h : ∀ o, o < r * c → cells[o]? = some (some (g (o / c) (o % c)))) :
    ofCells r c cells = ofFn r c g := by
  unfold ofFn
  congr 1
  apply List.ext_getElem?
  intro o
  by_cases ho : o < r * c
  · rw [h o ho]; simp [ho]
  · rw [List.getElem?_eq_none (by omega), List.getElem?_eq_none (by simp; omega)]

theorem fill_loops (r c : Nat) (body : Nat → Nat → Matrix α → Option (Matrix α))
    (g : Nat → Nat → α)
    (hbody : ∀ i j (cells : List (Option α)), i < r → j < c → cells.length = r * c →
      body i j (ofCells r c cells) = some (ofCells r c (cells.set (i * c + j) (some (g i j)))))
    (cells : List (Option α)) (hlen : cells.length = r * c) :
    forLoop 0 r (fun i tmp => forLoop 0 c (fun j tmp => body i j tmp) tmp) (ofCells r c cells) =
      some (ofFn r c g) := by
  obtain ⟨s', h1, cells', h2, h3, h4⟩ := forLoop_inv
    (fun i tmp => forLoop 0 c (fun j tmp => body i j tmp) tmp)
    (fun i m => ∃ cells' : List (Option α), m = ofCells r c cells' ∧ cells'.length = r * c ∧
      ∀ o, o < i * c → cells'[o]? = some (some (g (o / c) (o % c))))
    0 r (Nat.zero_le _) (ofCells r c cells) ⟨cells, rfl, hlen, by intro o ho; simp at ho⟩
    (by
      rintro i t _ hi ⟨cells1, rfl, hl1, hc1⟩
      obtain ⟨s2, k1, cells2, k2, k3, k4⟩ := forLoop_inv
        (fun j tmp => body i j tmp)
        (fun j m => ∃ cells' : List (Option α), m = ofCells r c cells' ∧ cells'.length = r * c ∧
          ∀ o, o < i * c + j → cells'[o]? = some (some (g (o / c) (o % c))))
        0 c (Nat.zero_le _) (ofCells r c cells1) ⟨cells1, rfl, hl1, by simpa using hc1⟩
        (by
          rintro j t _ hj ⟨cells3, rfl, hl3, hc3⟩
          refine ⟨_, hbody i j cells3 hi hj hl3, _, rfl, by simpa using hl3, ?_⟩
          intro o ho
          rw [List.getElem?_set]
          by_cases hoe : i * c + j = o
          · subst hoe
            simp [hl3, index_lt hi hj, index_div hj, index_mod hj]
          · simp only [hoe, if_false]
            exact hc3 o (by omega))
      refine ⟨s2, k1, cells2, k2, k3, ?_⟩
      intro o ho
      exact k4 o (by rw [Nat.add_mul] at ho; omega))
  rw [h1, h2, ofCells_eq_ofFn r c cells' g h3 h4]

theorem fill_loops_ofFn (r c : Nat) (body : Nat → Nat → Matrix α → Option (Matrix α))
    (g g0 : Nat → Nat → α)
    (hbody : ∀ i j (cells : List (Option α)), i < r → j < c → cells.length = r * c →
      body i j (ofCells r c cells) = some (ofCells r c (cells.set (i * c + j) (some (g i j))))) :
    forLoop 0 r (fun i tmp => forLoop 0 c (fun j tmp => body i j tmp) tmp) (ofFn r c g0) =
      some (ofFn r c g) :=
  fill_loops r c body g hbody _ (by simp)

end Matrix

theorem transpose_ofFn {α : Type} [Zero α] (m n : Nat) (g : Nat → Nat → α) :
    transpose (Matrix.ofFn m n g) = some (Matrix.ofFn n m fun i j => g j i) := by
  unfold transpose
  simp only [Matrix.cols_ofFn, Matrix.rows_ofFn, Matrix.zeros_eq, Option.some_bind]
  apply Matrix.fill_loops_ofFn n m (fun i j tmp => ((Matrix.ofFn m n g).get j i).bind fun x => tmp.set i j x)
  intro i j cells hi hj hlen
  simp only [Matrix.get_ofFn m n g j i hj hi, Option.some_bind]
  exact Matrix.set_ofCells n m cells i j _ hi hj hlen

section ProductLemmas

variable {α : Type} [Zero α] [Add α] [Mul α]

theorem tranProdDot_ofFn (K r c : Nat) (gA gB : Nat → Nat → α) (i j : Nat)
    (hi : i < r) (hj : j < c) :
    tranProdDot (Matrix.ofFn K r gA) (Matrix.ofFn K c gB) i j K 0 =
      some (sumTo (fun k => gA k i * gB k j) K) := by
  obtain ⟨s', h1, h2⟩ := forLoop_inv
    (fun k sum => ((Matrix.ofFn K r gA).get k i).bind fun a =>
      ((Matrix.ofFn K c gB).get k j).bind fun b => some (sum + a * b))
    (fun k s => s = sumTo (fun k => gA k i * gB k j) k)
    0 K (Nat.zero_le _) 0 rfl
    (by
      rintro k t _ hk rfl
      refine ⟨_, ?_, rfl⟩
      show ((Matrix.ofFn K r gA).get k i).bind _ = _
      rw [Matrix.get_ofFn K r gA k i hk hi]
      simp only [Option.some_bind]
      rw [Matrix.get_ofFn K c gB k j hk hj]
      rfl)
  rw [tranProdDot, h1, h2]

theorem tranProd_ofFn (K r c : Nat) (gA gB : Nat → Nat → α) :
    tranProd (Matrix.ofFn K r gA) (Matrix.ofFn K c gB) =
      some (Matrix.ofFn r c fun i j => sumTo (fun k => gA k i * gB k j) K) := by
  unfold tranProd
  simp only [Matrix.cols_ofFn, Matrix.rows_ofFn, Matrix.zeros_eq, Option.some_bind, if_true]
  apply Matrix.fill_loops_ofFn r c (fun i j tmp =>
    (tranProdDot (Matrix.ofFn K r gA) (Matrix.ofFn K c gB) i j K 0).bind fun sum => tmp.set i j sum)
  intro i j cells hi hj hlen
  simp only [tranProdDot_ofFn K r c gA gB i j hi hj, Option.some_bind]
  exact Matrix.set_ofCells r c cells i j _ hi hj hlen

theorem prodDot_ofFn (M K N : Nat) (gA gB : Nat → Nat → α) (i j : Nat)
    (hi : i < M) (hj : j < N) :
    ∃ p q, prodDot (Matrix.ofFn M K gA) (Matrix.ofFn K N gB) N K
        (0, (Matrix.ofFn M K gA).addr0 i 0, (Matrix.ofFn K N gB).addr0 0 j) =
      some (sumTo (fun k => gA i k * gB k j) K, p, q) := by
  rcases Nat.eq_zero_or_pos K with hK | hK
  · subst hK
    exact ⟨_, _, forLoop_empty _ 0 0 (le_refl _) _⟩
  · have hA : (Matrix.ofFn M K gA).addr0 i 0 = some (((i * K + 0 : Nat) : Int)) :=
      Matrix.addr0_ofCells M K _ i 0 hi
    have hB : (Matrix.ofFn K N gB).addr0 0 j = some (((0 * N + j : Nat) : Int)) :=
      Matrix.addr0_ofCells K N _ 0 j hK
    rw [hA, hB]
    obtain ⟨s', h1, h2⟩ := forLoop_inv
      (fun _ (s : α × Option Int × Option Int) =>
        (s.2.1.bind (Matrix.ofFn M K gA).load).bind fun a =>
          (s.2.2.bind (Matrix.ofFn K N gB).load).bind fun b =>
            some (s.1 + a * b, s.2.1.map fun p => p + 1, s.2.2.map fun p => p + N))
      (fun k s => s = (sumTo (fun k => gA i k * gB k j) k, some (((i * K + k : Nat) : Int)),
        some (((k * N + j : Nat) : Int))))
      0 K (Nat.zero_le _)
      (0, some (((i * K + 0 : Nat) : Int)), some (((0 * N + j : Nat) : Int))) rfl
      (by
        rintro k t _ hk rfl
        refine ⟨_, ?_, rfl⟩
        show ((some (((i * K + k : Nat) : Int))).bind (Matrix.ofFn M K gA).load).bind _ = _
        rw [Option.some_bind, Matrix.load_ofFn M K gA i k hi hk]
        simp only [Option.some_bind]
        rw [Matrix.load_ofFn K N gB k j hk hj]
        simp only [Option.some_bind, Option.map_some', Option.some.injEq, sumTo, Prod.mk.injEq,
          true_and]
        constructor
        · push_cast; ring
        · push_cast; ring)
    exact ⟨_, _, by rw [prodDot, h1, h2]⟩

theorem prodLoops_ofCells (M K N : Nat) (gA gB : Nat → Nat → α) (cells : List (Option α))
    (hlen : cells.length = M * N) :
    forLoop 0 M
      (fun i C => forLoop 0 N
        (fun j C =>
          let pRow := (Matrix.ofFn M K gA).addr0 i 0
          let pCol := (Matrix.ofFn K N gB).addr0 0 j
          (prodDot (Matrix.ofFn M K gA) (Matrix.ofFn K N gB) N K (0, pRow, pCol)).bind fun s =>
          C.set i j s.1)
        C)
      (Matrix.ofCells M N cells) =
    some (Matrix.ofFn M N fun i j => sumTo (fun k => gA i k * gB k j) K) := by
  apply Matrix.fill_loops M N (fun i j C =>
          (prodDot (Matrix.ofFn M K gA) (Matrix.ofFn K N gB) N K
            (0, (Matrix.ofFn M K gA).addr0 i 0, (Matrix.ofFn K N gB).addr0 0 j)).bind fun s =>
          C.set i j s.1) _ _ cells hlen
  intro i j cells' hi hj hlen'
  obtain ⟨p, q, hd⟩ := prodDot_ofFn M K N gA gB i j hi hj
  simp only [hd, Option.some_bind]
  exact Matrix.set_ofCells M N cells' i j _ hi hj hlen'

theorem prod_ofFn (M K N : Nat) (gA gB : Nat → Nat → α) :
    prod (Matrix.ofFn M K gA) (Matrix.ofFn K N gB) =
      some (Matrix.ofFn M N fun i j => sumTo (fun k => gA i k * gB k j) K) := by
  unfold prod prodInto
  simp only [Matrix.cols_ofFn, Matrix.rows_ofFn, Matrix.zeros_eq, Option.some_bind, if_true]
  have hres : (Matrix.ofFn M N fun _ _ => (0 : α)).resize M N = Matrix.ofFn M N fun _ _ => 0 := by
    unfold Matrix.resize
    rw [if_pos ⟨rfl, rfl⟩]
  rw [hres]
  exact prodLoops_ofCells M K N gA gB _ (by simp)

end ProductLemmas

namespace Matrix

variable {α : Type}

theorem copyFromArray_ofCells_shape (r c : Nat) (cells : List (Option α)) (v : Ptr (Option α))
    (M : Matrix α) (hlen : cells.length = r * c)
    (h : (ofCells r c cells).copyFromArray v = some M) :
    ∃ cells', cells'.length = r * c ∧ M = ofCells r c cells' := by
  refine loopFrom_preserve _
    (fun t : Matrix α => ∃ cells', cells'.length = r * c ∧ t = ofCells r c cells')
    ?_ _ _ (ofCells r c cells) M h ⟨cells, hlen, rfl⟩
  rintro j t t' ht ⟨cells', hl, rfl⟩
  cases hr : v.read (j : Int) with
  | none => simp [hr] at ht
  | some x =>
    by_cases hj : j < cells'.length
    · simp only [hr, Option.some_bind, ofCells, Ptr.write_live_nat _ _ _ hj, Option.map_some',
        Option.some.injEq] at ht
      exact ⟨cells'.set j x, by simpa using hl, ht.symm⟩
    · simp [hr, ofCells, Ptr.write, hj] at ht

theorem setByScalar_ofCells_shape (r c : Nat) (cells : List (Option α)) (x : α)
    (M : Matrix α) (hlen : cells.length = r * c)
    (h : (ofCells r c cells).setByScalar x = some M) :
    ∃ cells', cells'.length = r * c ∧ M = ofCells r c cells' := by
  rw [setByScalar_ofCells r c cells x hlen] at h
  exact ⟨_, by simp, (Option.some.inj h).symm⟩

theorem copyFromArray_new (v : Ptr (Option α)) :
    (new : Matrix α).copyFromArray v = some new := rfl

theorem setByScalar_new (x : α) : (new : Matrix α).setByScalar x = some new := rfl

end Matrix

theorem Reachable.shape {α : Type} {M : Matrix α} (h : Reachable M) :
    M = Matrix.new ∨
      ∃ cells, cells.length = M.nRow * M.nColumn ∧ M = Matrix.ofCells M.nRow M.nColumn cells := by
  have key : ∀ (r c : Nat) (cells : List (Option α)) (N : Matrix α),
      cells.length = r * c → N = Matrix.ofCells r c cells →
      N = Matrix.new ∨
        ∃ cells, cells.length = N.nRow * N.nColumn ∧ N = Matrix.ofCells N.nRow N.nColumn cells := by
    rintro r c cells N hl rfl
    exact Or.inr ⟨cells, hl, rfl⟩
  induction h with
  | new => exact Or.inl rfl
  | fill r c x M h =>
    obtain ⟨cells, hl, hM⟩ := Matrix.setByScalar_ofCells_shape r c _ x M (by simp) h
    exact key r c cells M hl hM
  | ofArray r c a M h =>
    obtain ⟨cells, hl, hM⟩ := Matrix.copyFromArray_ofCells_shape r c _ _ M (by simp) h
    exact key r c cells M hl hM
  | copy A M _ h _ =>
    obtain ⟨cells, hl, hM⟩ := Matrix.copyFromArray_ofCells_shape A.nRow A.nColumn _ _ M (by simp) h
    exact key _ _ cells M hl hM
  | assign S A M b _ _ h ihS _ =>
    unfold Matrix.assign at h
    split_ifs at h with hb hd
    · simp only [Option.some.injEq] at h; subst h; exact ihS
    · rcases ihS with hS | ⟨cells, hl, hS⟩
      · rw [hS, Matrix.copyFromArray_new] at h
        exact Or.inl (Option.some.inj h).symm
      · rw [hS] at h
        obtain ⟨cells', hl', hM⟩ := Matrix.copyFromArray_ofCells_shape _ _ _ _ M hl h
        exact key _ _ cells' M hl' hM
    · obtain ⟨cells, hl, hM⟩ := Matrix.copyFromArray_ofCells_shape A.nRow A.nColumn _ _ M (by simp) h
      exact key _ _ cells M hl hM
  | assignScalar S M x _ h ih =>
    rcases ih with hS | ⟨cells, hl, hS⟩
    · rw [hS] at h
      exact Or.inl (Option.some.inj h).symm
    · unfold Matrix.assignScalar at h
      rw [hS] at h
      obtain ⟨cells', hl', hM⟩ := Matrix.setByScalar_ofCells_shape _ _ _ x M hl h
      exact key _ _ cells' M hl' hM
  | resize S r c _ ih =>
    unfold Matrix.resize
    split_ifs with h
    · exact ih
    · exact key r c _ _ (by simp) rfl

theorem prodInto_ofFn {α : Type} [Zero α] [Add α] [Mul α] (M K N : Nat)
    (gA gB : Nat → Nat → α) (C : Matrix α) (hC : Reachable C) :
    ∃ C', prodInto (Matrix.ofFn M K gA) (Matrix.ofFn K N gB) C = some C' ∧
      C'.rows = M ∧ C'.cols = N ∧
      ∀ i j, i < M → j < N → C'.get i j = some (sumTo (fun k => gA i k * gB k j) K) := by
  unfold prodInto
  simp only [Matrix.cols_ofFn, Matrix.rows_ofFn, if_true]
  rcases (Reachable.resize C M N hC).shape with hnew | ⟨cells, hl, hS⟩
  · have hd := Matrix.resize_dims C M N
    rw [hnew] at hd
    have hM : M = 0 := hd.1.symm
    have hN : N = 0 := hd.2.symm
    subst hM; subst hN
    rw [hnew]
    exact ⟨Matrix.new, rfl, rfl, rfl, fun i j hi _ => absurd hi (Nat.not_lt_zero i)⟩
  · have hd := Matrix.resize_dims C M N
    rw [hd.1, hd.2] at hl hS
    rw [hS, prodLoops_ofCells M K N gA gB cells hl]
    exact ⟨_, rfl, rfl, rfl, fun i j hi hj => Matrix.get_ofFn M N _ i j hi hj⟩

theorem sampleA_valid : sampleA.Valid := ⟨[1, 2, 3, 4], by decide⟩

theorem sampleB_valid : sampleB.Valid := ⟨[0, 1, 5, 2, 0, 7], by decide⟩

theorem sampleC_valid : sampleC.Valid := ⟨[1, 2, 3], by decide⟩

theorem sumTo_eq_sum {α : Type} [AddCommMonoid α] (f : Nat → α) (K : Nat) :
    sumTo f K = ∑ k in Finset.range K, f k := by
  induction K with
  | zero => simp [sumTo]
  | succ K ih => rw [sumTo, ih, Finset.sum_range_succ]

/-- C4. `prod(A, B, C)` equals the reference matrix product: for every `A` (M-by-K) and `B`
(K-by-N), `K = 0` included, and every reachable prior state of the destination `C`, the call
returns, `C` then has dimensions M-by-N and `C[i][j]` is the sum of `A[i][k]*B[k][j]`
accumulated in increasing `k` (the kernel reads `B` through a pointer advanced by `N` per
step); the convenience form `prod(A, B)` returns a matrix of the same dimensions and
elements. -/
theorem prodInto_reference {α : Type} [Zero α] [Add α] [Mul α] (A B C : Matrix α)
    (hA : A.Valid) (hB : B.Valid) (hC : Reachable C) (hdim : B.rows = A.cols) :
    ∃ C' P, prodInto A B C = some C' ∧ prod A B = some P ∧
      C'.rows = A.rows ∧ C'.cols = B.cols ∧ P.rows = A.rows ∧ P.cols = B.cols ∧
      ∀ i j, i < A.rows → j < B.cols →
        C'.get i j = some (sumTo (fun k => A.elem i k * B.elem k j) A.cols) ∧
        P.get i j = C'.get i j := by
  have eA := hA.eq_ofFn
  have eB := hB.eq_ofFn
  rw [hdim] at eB
  obtain ⟨C', h1, h2, h3, h4⟩ := prodInto_ofFn A.rows A.cols B.cols A.elem B.elem C hC
  have h5 := prod_ofFn A.rows A.cols B.cols A.elem B.elem
  rw [← eA, ← eB] at h1 h5
  refine ⟨C', _, h1, h5, h2, h3, rfl, rfl, ?_⟩
  intro i j hi hj
  rw [h4 i j hi hj, Matrix.get_ofFn _ _ _ i j hi hj]
  exact ⟨rfl, rfl⟩

/-- Witness of C4: `[[1,2],[3,4]]` times `[[0,1,5],[2,0,7]]` into a default-constructed
destination gives `[[4,1,19],[8,3,43]]`; and with inner dimension 0 (`A` 1-by-0, `B` 0-by-1)
the kernel and the convenience form give the 1-by-1 matrix `[[0]]`. -/
theorem prodInto_reference_witness :
    sampleA.Valid ∧ sampleB.Valid ∧ Reachable (Matrix.new : Matrix Int) ∧
    sampleB.rows = sampleA.cols ∧
    prod sampleA sampleB =
      some (Matrix.ofCells 2 3 [some 4, some 1, some 19, some 8, some 3, some 43]) ∧
    prodInto (emptyMatrix 1 0) (emptyMatrix 0 1) Matrix.new =
      some (Matrix.ofCells 1 1 [some 0]) ∧
    prod (emptyMatrix 1 0) (emptyMatrix 0 1) = some (Matrix.ofCells 1 1 [some 0]) ∧
    ∃ C' P, prodInto sampleA sampleB Matrix.new = some C' ∧ prod sampleA sampleB = some P ∧
      C'.rows = sampleA.rows ∧ C'.cols = sampleB.cols ∧
      P.rows = sampleA.rows ∧ P.cols = sampleB.cols ∧
      ∀ i j, i < sampleA.rows → j < sampleB.cols →
        C'.get i j = some (sumTo (fun k => sampleA.elem i k * sampleB.elem k j) sampleA.cols) ∧
        P.get i j = C'.get i j :=
  ⟨sampleA_valid, sampleB_valid, Reachable.new, by decide, by decide, by decide, by decide,
    prodInto_reference sampleA sampleB Matrix.new sampleA_valid sampleB_valid Reachable.new
      (by decide)⟩

/-- C5. `tranProd(A, B)` equals `prod(transpose(A), B)`: for every pair of matrices with
`A.rows() == B.rows()` both return, and return the same matrix, of dimensions `A.cols()` by
`B.cols()`, whose element `[i][j]` is the sum of `A[k][i]*B[k][j]` in increasing `k`. -/
theorem tranProd_eq_prod_transpose {α : Type} [Zero α] [Add α] [Mul α] (A B : Matrix α)
    (hA : A.Valid) (hB : B.Valid) (hdim : A.rows = B.rows) :
    ∃ T P, transpose A = some T ∧ prod T B = some P ∧ tranProd A B = some P ∧
      P.rows = A.cols ∧ P.cols = B.cols ∧
      ∀ i j, i < A.cols → j < B.cols →
        P.get i j = some (sumTo (fun k => A.elem k i * B.elem k j) A.rows) := by
  have eA := hA.eq_ofFn
  have eB := hB.eq_ofFn
  rw [← hdim] at eB
  have h1 := transpose_ofFn A.rows A.cols A.elem
  have h2 := prod_ofFn A.cols A.rows B.cols (fun i j => A.elem j i) B.elem
  have h3 := tranProd_ofFn A.rows A.cols B.cols A.elem B.elem
  rw [← eA] at h1 h3
  rw [← eB] at h2 h3
  exact ⟨_, _, h1, h2, h3, rfl, rfl, fun i j hi hj => Matrix.get_ofFn _ _ _ i j hi hj⟩

/-- Witness of C5: `A = [[1,2],[3,4]]` and `B = [[0,1,5],[2,0,7]]` give `[[6,1,26],[8,2,38]]`;
and for `A = B` of 0 rows and 1 column both routines give the 1-by-1 matrix `[[0]]`. -/
theorem tranProd_eq_prod_transpose_witness :
    sampleA.Valid ∧ sampleB.Valid ∧ sampleA.rows = sampleB.rows ∧
    tranProd sampleA sampleB =
      some (Matrix.ofCells 2 3 [some 6, some 1, some 26, some 8, some 2, some 38]) ∧
    tranProd (emptyMatrix 0 1) (emptyMatrix 0 1) = some (Matrix.ofCells 1 1 [some 0]) ∧
    ((transpose (emptyMatrix 0 1)).bind fun T => prod T (emptyMatrix 0 1)) =
      some (Matrix.ofCells 1 1 [some 0]) ∧
    ∃ T P, transpose sampleA = some T ∧ prod T sampleB = some P ∧
      tranProd sampleA sampleB = some P ∧ P.rows = sampleA.cols ∧ P.cols = sampleB.cols ∧
      ∀ i j, i < sampleA.cols → j < sampleB.cols →
        P.get i j = some (sumTo (fun k => sampleA.elem k i * sampleB.elem k j) sampleA.rows) :=
  ⟨sampleA_valid, sampleB_valid, by decide, by decide, by decide, by decide,
    tranProd_eq_prod_transpose sampleA sampleB sampleA_valid sampleB_valid (by decide)⟩

theorem sumTo_assoc {α : Type} [Semiring α] (a : Nat → α) (b : Nat → Nat → α) (c : Nat → α)
    (K L : Nat) :
    sumTo (fun t => sumTo (fun k => a k * b k t) K * c t) L =
      sumTo (fun k => a k * sumTo (fun t => b k t * c t) L) K := by
  simp only [sumTo_eq_sum, Finset.sum_mul, Finset.mul_sum]
  rw [Finset.sum_comm]
  refine Finset.sum_congr rfl fun k _ => Finset.sum_congr rfl fun t _ => ?_
  rw [mul_assoc]

/-- C6. Product associativity: for every `A` (m-by-k), `B` (k-by-l), `C` (l-by-n) over a
semiring (so over every commutative ring), `prod(prod(A,B), C)` and `prod(A, prod(B,C))` both
return, and return the same matrix, of dimensions m-by-n: identical dimensions and identical
element values. -/
theorem prod_assoc {α : Type} [Semiring α] (A B C : Matrix α)
    (hA : A.Valid) (hB : B.Valid) (hC : C.Valid)
    (hAB : A.cols = B.rows) (hBC : B.cols = C.rows) :
    ∃ AB BC L R, prod A B = some AB ∧ prod AB C = some L ∧
      prod B C = some BC ∧ prod A BC = some R ∧
      L.rows = A.rows ∧ L.cols = C.cols ∧ R.rows = A.rows ∧ R.cols = C.cols ∧
      (∀ i j, i < A.rows → j < C.cols → L.get i j = R.get i j) ∧ L = R := by
  have eA := hA.eq_ofFn
  have eB := hB.eq_ofFn
  have eC := hC.eq_ofFn
  rw [← hAB] at eB
  rw [← hBC] at eC
  have p1 := prod_ofFn A.rows A.cols B.cols A.elem B.elem
  have p2 := prod_ofFn A.rows B.cols C.cols
    (fun i j => sumTo (fun k => A.elem i k * B.elem k j) A.cols) C.elem
  have p3 := prod_ofFn A.cols B.cols C.cols B.elem C.elem
  have p4 := prod_ofFn A.rows A.cols C.cols A.elem
    (fun i j => sumTo (fun k => B.elem i k * C.elem k j) B.cols)
  have hLR : Matrix.ofFn A.rows C.cols (fun i j => sumTo (fun t =>
        sumTo (fun k => A.elem i k * B.elem k t) A.cols * C.elem t j) B.cols) =
      Matrix.ofFn A.rows C.cols (fun i j => sumTo (fun k =>
        A.elem i k * sumTo (fun t => B.elem k t * C.elem t j) B.cols) A.cols) :=
    Matrix.ofFn_congr _ _ _ _ fun i j _ _ => sumTo_assoc _ _ _ _ _
  rw [← eA, ← eB] at p1
  rw [← eC] at p2 p3
  rw [← eB] at p3
  rw [← eA] at p4
  rw [hLR] at p2
  exact ⟨_, _, _, _, p1, p2, p3, p4, rfl, rfl, rfl, rfl, fun _ _ _ _ => rfl, rfl⟩

/-- Witness of C6: `[[1,2],[3,4]]`, `[[0,1,5],[2,0,7]]`, `[[1],[2],[3]]` give `[[63],[143]]`
on both sides; and with `A` 1-by-0, `B` 0-by-1, `C = [[0]]` both sides give `[[0]]`. -/
theorem prod_assoc_witness :
    sampleA.Valid ∧ sampleB.Valid ∧ sampleC.Valid ∧
    sampleA.cols = sampleB.rows ∧ sampleB.cols = sampleC.rows ∧
    ((prod sampleA sampleB).bind fun AB => prod AB sampleC) =
      some (Matrix.ofCells 2 1 [some 63, some 143]) ∧
    ((prod (emptyMatrix 1 0) (emptyMatrix 0 1)).bind fun AB =>
      prod AB (Matrix.ofCells 1 1 [some 0])) = some (Matrix.ofCells 1 1 [some 0]) ∧
    ((prod (emptyMatrix 0 1) (Matrix.ofCells 1 1 [some 0])).bind fun BC =>
      prod (emptyMatrix 1 0) BC) = some (Matrix.ofCells 1 1 [some 0]) ∧
    ∃ AB BC L R, prod sampleA sampleB = some AB ∧ prod AB sampleC = some L ∧
      prod sampleB sampleC = some BC ∧ prod sampleA BC = some R ∧
      L.rows = sampleA.rows ∧ L.cols = sampleC.cols ∧
      R.rows = sampleA.rows ∧ R.cols = sampleC.cols ∧
      (∀ i j, i < sampleA.rows → j < sampleC.cols → L.get i j = R.get i j) ∧ L = R :=
  ⟨sampleA_valid, sampleB_valid, sampleC_valid, by decide, by decide, by decide, by decide,
    by decide,
    prod_assoc sampleA sampleB sampleC sampleA_valid sampleB_valid sampleC_valid
      (by decide) (by decide)⟩

/-- C7. Transpose involution: for every matrix `M` (any dimensions, zero rows or columns
included), `transpose(M)` returns the `M.cols()`-by-`M.rows()` matrix with
`result[i][j] = M[j][i]`, and `transpose(transpose(M))` returns `M`: same dimensions, same
elements. -/
theorem transpose_involution {α : Type} [Zero α] (M : Matrix α) (hM : M.Valid) :
    ∃ T TT, transpose M = some T ∧ transpose T = some TT ∧
      T.rows = M.cols ∧ T.cols = M.rows ∧
      (∀ i j, i < M.cols → j < M.rows → T.get i j = M.get j i) ∧
      TT.rows = M.rows ∧ TT.cols = M.cols ∧
      (∀ i j, i < M.rows → j < M.cols → TT.get i j = M.get i j) ∧ TT = M := by
  have eM := hM.eq_ofFn
  have h1 := transpose_ofFn M.rows M.cols M.elem
  have h2 := transpose_ofFn M.cols M.rows (fun i j => M.elem j i)
  rw [← eM] at h1
  have h3 : transpose (Matrix.ofFn M.cols M.rows fun i j => M.elem j i) = some M := by
    rw [h2]; exact congrArg some eM.symm
  refine ⟨_, M, h1, h3, rfl, rfl, ?_, rfl, rfl, fun _ _ _ _ => rfl, rfl⟩
  intro i j hi hj
  rw [Matrix.get_ofFn _ _ _ i j hi hj]
  conv_rhs => rw [eM]
  rw [Matrix.get_ofFn _ _ _ j i hj hi]

/-- Witness of C7 on `[[0,1,5],[2,0,7]]`. -/
theorem transpose_involution_witness :
    sampleB.Valid ∧
    ∃ T TT, transpose sampleB = some T ∧ transpose T = some TT ∧
      T.rows = sampleB.cols ∧ T.cols = sampleB.rows ∧
      (∀ i j, i < sampleB.cols → j < sampleB.rows → T.get i j = sampleB.get j i) ∧
      TT.rows = sampleB.rows ∧ TT.cols = sampleB.cols ∧
      (∀ i j, i < sampleB.rows → j < sampleB.cols → TT.get i j = sampleB.get i j) ∧
      TT = sampleB :=
  ⟨sampleB_valid, transpose_involution sampleB sampleB_valid⟩

namespace Matrix

theorem set_ofFn_eq {α : Type} (r c : Nat) (g g' : Nat → Nat → α) (i j : Nat) (x : α)
    (hi : i < r) (hj : j < c)
    (H : ∀ a b, a < r → b < c → g' a b = if a = i ∧ b = j then x else g a b) :
    (ofFn r c g).set i j x = some (ofFn r c g') := by
  rw [set_ofFn r c g i j x hi hj]
  exact congrArg some (ofFn_congr r c _ _ fun a b ha hb => (H a b ha hb).symm)

end Matrix

theorem swapRows_ofFn {α : Type} (n k p : Nat) (g : Nat → Nat → α) (hk : k < n) (hp : p < n) :
    swapRows (Matrix.ofFn n n g) n k p = some (Matrix.ofFn n n (gSwapRows g k p)) := by
  obtain ⟨s', h1, h2⟩ := forLoop_inv
    (fun j (m : Matrix α) => (m.get k j).bind fun tmp => (m.get p j).bind fun x =>
      (m.set k j x).bind fun m => m.set p j tmp)
    (fun t m => m = Matrix.ofFn n n fun a b => if b < t then gSwapRows g k p a b else g a b)
    0 n (Nat.zero_le _) (Matrix.ofFn n n g)
    (Matrix.ofFn_congr _ _ _ _ fun a b _ _ => by simp)
    (by
      rintro j t _ hj rfl
      refine ⟨_, ?_, rfl⟩
      show ((Matrix.ofFn n n _).get k j).bind _ = _
      rw [Matrix.get_ofFn _ _ _ k j hk hj, Option.some_bind,
        Matrix.get_ofFn _ _ _ p j hp hj, Option.some_bind,
        Matrix.set_ofFn _ _ _ k j _ hk hj, Option.some_bind]
      apply Matrix.set_ofFn_eq _ _ _ _ p j _ hp hj
      intro a b _ _
      simp only [upd, gSwapRows, lt_self_iff_false, if_false]
      by_cases hb : b = j
      · subst hb
        by_cases ha : a = p
        · subst ha; by_cases hak : a = k <;> simp [hak]
        · by_cases hak : a = k
          · subst hak; simp [ha]
          · simp [ha, hak]
      · have h1 : b < j + 1 ↔ b < j := by omega
        simp [hb, h1])
  rw [swapRows, h1, h2]
  exact congrArg some (Matrix.ofFn_congr _ _ _ _ fun a b _ hb => by simp [hb])

section InverseLemmas

variable {α : Type} [LinearOrderedField α]

theorem pivotColumn_ofFn (n k : Nat) (g : Nat → Nat → α) (hk : k < n) :
    pivotColumn (Matrix.ofFn n n g) n k =
      some (Matrix.ofFn n n fun a b => if b = k ∧ a ≠ k then -g k k * g a k else g a b) := by
  obtain ⟨s', h1, h2⟩ := forLoop_inv
    (fun i (m : Matrix α) => if i ≠ k then
        (m.get k k).bind fun d => (m.get i k).bind fun x => m.set i k (-d * x)
      else some m)
    (fun t m => m = Matrix.ofFn n n fun a b =>
      if b = k ∧ a ≠ k ∧ a < t then -g k k * g a k else g a b)
    0 n (Nat.zero_le _) (Matrix.ofFn n n g)
    (Matrix.ofFn_congr _ _ _ _ fun a b _ _ => by simp)
    (by
      rintro i t _ hi rfl
      by_cases hik : i = k
      · subst hik
        refine ⟨_, by simp only [ne_eq, not_true_eq_false, if_false]; rfl, ?_⟩
        apply Matrix.ofFn_congr
        intro a b _ _
        have h1 : a ≠ i → (a < i + 1 ↔ a < i) := by omega
        by_cases hak : a = i <;> simp [hak, h1]
      · refine ⟨_, ?_, rfl⟩
        simp only [ne_eq, hik, not_false_eq_true, if_true]
        rw [Matrix.get_ofFn _ _ _ k k hk hk, Option.some_bind,
          Matrix.get_ofFn _ _ _ i k hi hk, Option.some_bind]
        apply Matrix.set_ofFn_eq _ _ _ _ i k _ hi hk
        intro a b _ _
        by_cases hai : a = i
        · subst hai; by_cases hb : b = k <;> simp [hb, hik]
        · have h1 : a < i + 1 ↔ a < i := by omega
          simp [hai, h1])
  rw [pivotColumn, h1, h2]
  exact congrArg some (Matrix.ofFn_congr _ _ _ _ fun a b ha _ => by simp [ha])

theorem pivotRow_ofFn (n k : Nat) (g : Nat → Nat → α) (hk : k < n) :
    pivotRow (Matrix.ofFn n n g) n k =
      some (Matrix.ofFn n n fun a b => if a = k ∧ b ≠ k then g k b * g k k else g a b) := by
  obtain ⟨s', h1, h2⟩ := forLoop_inv
    (fun j (m : Matrix α) => if j ≠ k then
        (m.get k j).bind fun x => (m.get k k).bind fun d => m.set k j (x * d)
      else some m)
    (fun t m => m = Matrix.ofFn n n fun a b =>
      if a = k ∧ b ≠ k ∧ b < t then g k b * g k k else g a b)
    0 n (Nat.zero_le _) (Matrix.ofFn n n g)
    (Matrix.ofFn_congr _ _ _ _ fun a b _ _ => by simp)
    (by
      rintro j t _ hj rfl
      by_cases hjk : j = k
      · subst hjk
        refine ⟨_, by simp only [ne_eq, not_true_eq_false, if_false]; rfl, ?_⟩
        apply Matrix.ofFn_congr
        intro a b _ _
        have h1 : b ≠ j → (b < j + 1 ↔ b < j) := by omega
        by_cases hbk : b = j <;> simp [hbk, h1]
      · refine ⟨_, ?_, rfl⟩
        simp only [ne_eq, hjk, not_false_eq_true, if_true]
        rw [Matrix.get_ofFn _ _ _ k j hk hj, Option.some_bind,
          Matrix.get_ofFn _ _ _ k k hk hk, Option.some_bind]
        apply Matrix.set_ofFn_eq _ _ _ _ k j _ hk hj
        intro a b _ _
        by_cases hbj : b = j
        · subst hbj; by_cases ha : a = k <;> simp [ha, hjk]
        · have h1 : b < j + 1 ↔ b < j := by omega
          simp [hbj, h1])
  rw [pivotRow, h1, h2]
  exact congrArg some (Matrix.ofFn_congr _ _ _ _ fun a b _ hb => by simp [hb])

theorem pivotInteriorRow_ofFn (n k i : Nat) (g : Nat → Nat → α) (hk : k < n) (hi : i < n)
    (hik : i ≠ k) :
    forLoop 0 n
      (fun j (m : Matrix α) => if j ≠ k then
          (m.get i j).bind fun x => (m.get i k).bind fun c => (m.get k j).bind fun r =>
            m.set i j (x + c * r)
        else some m)
      (Matrix.ofFn n n g) =
    some (Matrix.ofFn n n fun a b => if a = i ∧ b ≠ k then g i b + g i k * g k b else g a b) := by
  obtain ⟨s', h1, h2⟩ := forLoop_inv
    (fun j (m : Matrix α) => if j ≠ k then
        (m.get i j).bind fun x => (m.get i k).bind fun c => (m.get k j).bind fun r =>
          m.set i j (x + c * r)
      else some m)
    (fun t m => m = Matrix.ofFn n n fun a b =>
      if a = i ∧ b ≠ k ∧ b < t then g i b + g i k * g k b else g a b)
    0 n (Nat.zero_le _) (Matrix.ofFn n n g)
    (Matrix.ofFn_congr _ _ _ _ fun a b _ _ => by simp)
    (by
      rintro j t _ hj rfl
      by_cases hjk : j = k
      · subst hjk
        refine ⟨_, by simp only [ne_eq, not_true_eq_false, if_false]; rfl, ?_⟩
        apply Matrix.ofFn_congr
        intro a b _ _
        have h1 : b ≠ j → (b < j + 1 ↔ b < j) := by omega
        by_cases hbk : b = j <;> simp [hbk, h1]
      · refine ⟨_, ?_, rfl⟩
        have hki : ¬ k = i := fun h => hik h.symm
        simp only [ne_eq, hjk, not_false_eq_true, if_true]
        rw [Matrix.get_ofFn _ _ _ i j hi hj, Option.some_bind,
          Matrix.get_ofFn _ _ _ i k hi hk, Option.some_bind,
          Matrix.get_ofFn _ _ _ k j hk hj, Option.some_bind]
        apply Matrix.set_ofFn_eq _ _ _ _ i j _ hi hj
        intro a b _ _
        by_cases hbj : b = j
        · subst hbj; by_cases ha : a = i <;> simp [ha, hjk, hki]
        · have h1 : b < j + 1 ↔ b < j := by omega
          simp [hbj, h1, hki])
  rw [h1, h2]
  exact congrArg some (Matrix.ofFn_congr _ _ _ _ fun a b _ hb => by simp [hb])

theorem pivotInterior_ofFn (n k : Nat) (g : Nat → Nat → α) (hk : k < n) :
    pivotInterior (Matrix.ofFn n n g) n k =
      some (Matrix.ofFn n n fun a b =>
        if a ≠ k ∧ b ≠ k then g a b + g a k * g k b else g a b) := by
  obtain ⟨s', h1, h2⟩ := forLoop_inv
    (fun i (m : Matrix α) => if i ≠ k then
        forLoop 0 n
          (fun j m => if j ≠ k then
              (m.get i j).bind fun x => (m.get i k).bind fun c => (m.get k j).bind fun r =>
                m.set i j (x + c * r)
            else some m)
          m
      else some m)
    (fun t m => m = Matrix.ofFn n n fun a b =>
      if a ≠ k ∧ b ≠ k ∧ a < t then g a b + g a k * g k b else g a b)
    0 n (Nat.zero_le _) (Matrix.ofFn n n g)
    (Matrix.ofFn_congr _ _ _ _ fun a b _ _ => by simp)
    (by
      rintro i t _ hi rfl
      by_cases hik : i = k
      · subst hik
        refine ⟨_, by simp only [ne_eq, not_true_eq_false, if_false]; rfl, ?_⟩
        apply Matrix.ofFn_congr
        intro a b _ _
        have h1 : a ≠ i → (a < i + 1 ↔ a < i) := by omega
        by_cases hak : a = i <;> simp [hak, h1]
      · refine ⟨_, ?_, rfl⟩
        simp only [ne_eq, hik, not_false_eq_true, if_true]
        rw [pivotInteriorRow_ofFn n k i _ hk hi hik]
        apply congrArg some
        apply Matrix.ofFn_congr
        intro a b _ _
        by_cases hai : a = i
        · subst hai; by_cases hb : b = k <;> simp [hb, hik]
        · have h1 : a < i + 1 ↔ a < i := by omega
          simp [hai, h1])
  rw [pivotInterior, h1, h2]
  exact congrArg some (Matrix.ofFn_congr _ _ _ _ fun a b ha _ => by simp [ha])

theorem pivotStep_ofFn (n k : Nat) (g : Nat → Nat → α) (hk : k < n) :
    pivotStep (Matrix.ofFn n n g) n k = some (Matrix.ofFn n n (gPivot g k)) := by
  rw [pivotStep, Matrix.get_ofFn _ _ _ k k hk hk, Option.some_bind,
    Matrix.set_ofFn _ _ _ k k _ hk hk, Option.some_bind,
    pivotColumn_ofFn n k _ hk, Option.some_bind,
    pivotInterior_ofFn n k _ hk, Option.some_bind,
    pivotRow_ofFn n k _ hk]
  apply congrArg some
  apply Matrix.ofFn_congr
  intro a b _ _
  by_cases ha : a = k <;> by_cases hb : b = k <;> simp [upd, gPivot, ha, hb]

theorem pivotSearch_ofFn (n k : Nat) (g : Nat → Nat → α) (hk : k < n) :
    ∃ s, pivotSearch (Matrix.ofFn n n g) n k = some s ∧ k ≤ s.2 ∧ s.2 < n ∧
      |s.1| = |g s.2 k| := by
  obtain ⟨s', h1, h2⟩ := forLoop_inv
    (fun i (s : α × Nat) => ((Matrix.ofFn n n g).get i k).bind fun x =>
      let tmp := |x|
      if tmp > s.1 then some (tmp, i) else some s)
    (fun _ s => k ≤ s.2 ∧ s.2 < n ∧ |s.1| = |g s.2 k|)
    (k + 1) n (by omega) (g k k, k) ⟨le_refl _, hk, rfl⟩
    (by
      rintro i t hki hi ⟨h1, h2, h3⟩
      have hget := Matrix.get_ofFn n n g i k hi hk
      by_cases hgt : |g i k| > t.1
      · refine ⟨(|g i k|, i), ?_, by show k ≤ i; omega, hi, abs_abs _⟩
        simp only [hget, Option.some_bind, hgt, if_true]
      · refine ⟨t, ?_, h1, h2, h3⟩
        simp only [hget, Option.some_bind, hgt, if_false])
  refine ⟨s', ?_, h2⟩
  rw [pivotSearch, Matrix.get_ofFn _ _ _ k k hk hk, Option.some_bind]
  exact h1

end InverseLemmas

section Elimination

variable {α : Type} [LinearOrderedField α]

theorem KerInv.start (n : Nat) (A : Nat → Nat → α) : KerInv n A A 0 := by
  intro v hv i hi
  simp only [Nat.not_lt_zero, if_false, zero_add, ← Finset.range_eq_Ico]
  exact hv i hi

theorem KerInv.final {n : Nat} {A g : Nat → Nat → α} (h : KerInv n A g n) (v : Nat → α)
    (hv : ∀ i, i < n → ∑ j in Finset.range n, A i j * v j = 0) (i : Nat) (hi : i < n) :
    v i = 0 := by
  have := h v hv i hi
  simpa [hi] using this

theorem KerInv.swap {n k p : Nat} {A g : Nat → Nat → α} (h : KerInv n A g k)
    (hk : k < n) (hkp : k ≤ p) (hp : p < n) : KerInv n A (gSwapRows g k p) k := by
  intro v hv i hi
  have hrk := h v hv k hk
  have hrp := h v hv p hp
  have hri := h v hv i hi
  have hpk : ¬ p < k := by omega
  simp only [lt_self_iff_false, hpk, if_false, zero_add] at hrk hrp
  by_cases hik : i = k
  · subst hik
    simp only [gSwapRows, if_true, lt_self_iff_false, if_false, zero_add]
    exact hrp
  · by_cases hip : i = p
    · subst hip
      simp only [gSwapRows, hik, if_false, if_true, hpk, zero_add]
      exact hrk
    · simp only [gSwapRows, hik, hip, if_false]
      exact hri

theorem KerInv.pivot {n k : Nat} {A g : Nat → Nat → α} (h : KerInv n A g k)
    (hk : k < n) (hne : g k k ≠ 0) : KerInv n A (gPivot g k) (k + 1) := by
  intro v hv i hi
  have hrk := h v hv k hk
  have hri := h v hv i hi
  rw [Finset.sum_eq_sum_Ico_succ_bot hk] at hrk hri
  simp only [lt_self_iff_false, if_false, zero_add] at hrk
  by_cases hik : i = k
  · subst hik
    have hterm : ∀ j ∈ Finset.Ico (i + 1) n,
        gPivot g i i j * v j = 1 / g i i * (g i j * v j) := by
      intro j hj
      have hji : j ≠ i := by rw [Finset.mem_Ico] at hj; omega
      simp only [gPivot, if_true, hji, if_false]
      ring
    rw [Finset.sum_congr rfl hterm, ← Finset.mul_sum]
    simp only [lt_add_one, if_true]
    field_simp
    linear_combination hrk
  · have hterm : ∀ j ∈ Finset.Ico (k + 1) n,
        gPivot g k i j * v j = g i j * v j + -(1 / g k k) * g i k * (g k j * v j) := by
      intro j hj
      have hjk : j ≠ k := by rw [Finset.mem_Ico] at hj; omega
      simp only [gPivot, hik, hjk, if_false]
      ring
    rw [Finset.sum_congr rfl hterm, Finset.sum_add_distrib, ← Finset.mul_sum]
    have hlt : (i < k + 1) ↔ (i < k) := by omega
    simp only [hlt]
    have hfield : -(1 / g k k) * g i k * g k k = - g i k := by field_simp
    linear_combination hri + (-(1 / g k k) * g i k) * hrk - v k * hfield

end Elimination

section Singular

variable {α : Type} [LinearOrderedField α]

theorem inverseFrom_singular (EPS : α) (hE : 0 < EPS) (n : Nat) (A : Nat → Nat → α)
    (v : Nat → α) (hker : ∀ i, i < n → ∑ j in Finset.range n, A i j * v j = 0)
    (hv : ∃ i, i < n ∧ v i ≠ 0) :
    ∀ (steps k : Nat) (g : Nat → Nat → α) (index : List Nat), k + steps = n → KerInv n A g k →
      inverseFrom EPS n steps k (Matrix.ofFn n n g) index = Matrix.zeros 0 0 := by
  intro steps
  induction steps with
  | zero =>
    intro k g index hk hinv
    obtain ⟨i, hi, hvi⟩ := hv
    have hkn : k = n := by omega
    subst hkn
    exact absurd (hinv.final v hker i hi) hvi
  | succ steps ih =>
    intro k g index hk hinv
    have hkn : k < n := by omega
    obtain ⟨s, hs, h1, h2, h3⟩ := pivotSearch_ofFn n k g hkn
    rw [inverseFrom, hs, Option.some_bind]
    by_cases hlt : |s.1| < EPS
    · simp only [hlt, if_true]
    · simp only [hlt, if_false]
      have hpiv : g s.2 k ≠ 0 := by
        intro h0
        rw [h0, abs_zero] at h3
        rw [h3] at hlt
        exact hlt hE
      by_cases hsk : s.2 = k
      · simp only [ne_eq, hsk, not_true_eq_false, if_false, Option.some_bind]
        rw [pivotStep_ofFn n k g hkn, Option.some_bind]
        rw [hsk] at hpiv
        exact ih (k + 1) _ _ (by omega) (hinv.pivot hkn hpiv)
      · simp only [ne_eq, hsk, not_false_eq_true, if_true]
        rw [swapRows_ofFn n k s.2 g hkn h2, Option.some_bind,
          pivotStep_ofFn n k _ hkn, Option.some_bind]
        have hpiv' : gSwapRows g k s.2 k k ≠ 0 := by simpa [gSwapRows] using hpiv
        exact ih (k + 1) _ _ (by omega) ((hinv.swap hkn h1 h2).pivot hkn hpiv')

theorem inverse_ofFn_singular (EPS : α) (hE : 0 < EPS) (n : Nat) (A : Nat → Nat → α)
    (hdet : Matrix.det (Matrix.toSquare (Matrix.ofFn n n A) n) = 0) :
    inverse EPS (Matrix.ofFn n n A) = Matrix.zeros 0 0 := by
  obtain ⟨w, hw0, hw⟩ := Matrix.exists_mulVec_eq_zero_iff.mpr hdet
  have hker : ∀ i, i < n →
      ∑ j in Finset.range n, A i j * (fun j => if h : j < n then w ⟨j, h⟩ else 0) j = 0 := by
    intro i hi
    have h1 := congrFun hw ⟨i, hi⟩
    simp only [Matrix.mulVec, Matrix.dotProduct, Pi.zero_apply] at h1
    rw [Finset.sum_range]
    rw [← h1]
    refine Finset.sum_congr rfl fun j _ => ?_
    simp only [Matrix.toSquare, Fin.is_lt, dite_true, Fin.eta]
    rw [Matrix.elem_ofFn n n A i j hi j.is_lt]
  have hv : ∃ i, i < n ∧ (fun j => if h : j < n then w ⟨j, h⟩ else 0) i ≠ 0 := by
    by_contra hcon
    apply hw0
    funext i
    by_contra hi
    exact hcon ⟨i, i.is_lt, by simpa using hi⟩
  unfold inverse
  simp only [Matrix.rows_ofFn, Matrix.cols_ofFn, if_true, Matrix.copy_ofFn, Option.some_bind]
  exact inverseFrom_singular EPS hE n A _ hker hv n 0 A _ (by omega) (KerInv.start n A)

end Singular

theorem singular2_valid : singular2.Valid := ⟨[1, 2, 2, 4], by decide!⟩

theorem singular2_det : Matrix.det (singular2.toSquare 2) = 0 := by
  have h00 : singular2.elem 0 0 = 1 := by decide!
  have h01 : singular2.elem 0 1 = 2 := by decide!
  have h10 : singular2.elem 1 0 = 2 := by decide!
  have h11 : singular2.elem 1 1 = 4 := by decide!
  rw [Matrix.det_fin_two]
  simp only [Matrix.toSquare, Fin.val_zero, Fin.val_one, h00, h01, h10, h11]
  norm_num

/-- C2. Singular input is reported: over an ordered field with `EPS > 0`, for every matrix
`M` of order `n` whose determinant is zero, `inverse(M)` returns the sentinel
`Matrix<Type>(0,0)`, of 0 rows and 0 columns. -/
theorem inverse_singular {α : Type} [LinearOrderedField α] (EPS : α) (hE : 0 < EPS)
    (M : Matrix α) (n : Nat) (hM : M.Valid) (hr : M.rows = n) (hc : M.cols = n)
    (hdet : Matrix.det (M.toSquare n) = 0) :
    ∃ R, inverse EPS M = some R ∧ Matrix.zeros 0 0 = some R ∧ R.rows = 0 ∧ R.cols = 0 := by
  have eM := hM.eq_ofFn
  rw [hr, hc] at eM
  rw [eM] at hdet
  have h := inverse_ofFn_singular EPS hE n M.elem hdet
  rw [← eM] at h
  rw [h, Matrix.zeros_eq]
  exact ⟨_, rfl, rfl, rfl, rfl⟩

/-- Witness of C2: `inverse` reports `[[1,2],[2,4]]` singular. -/
theorem inverse_singular_witness :
    (0 : ℚ) < 1 / 1000 ∧ singular2.Valid ∧ singular2.rows = 2 ∧ singular2.cols = 2 ∧
    Matrix.det (singular2.toSquare 2) = 0 ∧
    ∃ R, inverse (1 / 1000) singular2 = some R ∧ Matrix.zeros 0 0 = some R ∧
      R.rows = 0 ∧ R.cols = 0 :=
  ⟨by norm_num, singular2_valid, rfl, rfl, singular2_det,
    inverse_singular (1 / 1000) (by norm_num) singular2 2 singular2_valid rfl rfl singular2_det⟩

theorem scenarioA_valid : scenarioA.Valid := ⟨[4, 3, 6, 3], by decide!⟩

/-- C3. Concrete inverse scenario: for `A = [[4,3],[6,3]]` over the rationals and every `EPS`
with `EPS <= 1` (so for every `0 < EPS <= 1`), `inverse(A)` returns `[[-1/2, 1/2],[1, -2/3]]`, and `prod(A, inverse(A))`
returns `[[1,0],[0,1]]`, which is `eye(2, 1)`. -/
theorem inverse_scenario (EPS : ℚ) (h1 : EPS ≤ 1) :
    inverse EPS scenarioA = some scenarioInv ∧ prod scenarioA scenarioInv = some identity2 ∧
      eye 2 1 = some identity2 := by
  refine ⟨?_, by decide!, by decide!⟩
  have hcopy : scenarioA.copy = some scenarioA := by decide!
  have hs0 : pivotSearch scenarioA 2 0 = some (6, 1) := by decide!
  have hsw : swapRows scenarioA 2 0 1 =
      some (Matrix.ofCells 2 2 [some 6, some 3, some 4, some 3]) := by decide!
  have hp0 : pivotStep (Matrix.ofCells 2 2 [some (6 : ℚ), some 3, some 4, some 3]) 2 0 =
      some (Matrix.ofCells 2 2 [some (1 / 6), some (1 / 2), some (-2 / 3), some 1]) := by
    decide!
  have hs1 : pivotSearch
      (Matrix.ofCells 2 2 [some (1 / 6 : ℚ), some (1 / 2), some (-2 / 3), some 1]) 2 1 =
      some (1, 1) := by decide!
  have hp1 : pivotStep
      (Matrix.ofCells 2 2 [some (1 / 6 : ℚ), some (1 / 2), some (-2 / 3), some 1]) 2 1 =
      some (Matrix.ofCells 2 2 [some (1 / 2), some (-1 / 2), some (-2 / 3), some 1]) := by
    decide!
  have hex : exchangeBack
      (Matrix.ofCells 2 2 [some (1 / 2 : ℚ), some (-1 / 2), some (-2 / 3), some 1]) 2 [1, 1] =
      some scenarioInv := by decide!
  have hn6 : ¬ |(6 : ℚ)| < EPS := by
    rw [abs_of_pos (by norm_num : (0 : ℚ) < 6)]; linarith
  have hn1 : ¬ |(1 : ℚ)| < EPS := by
    rw [abs_of_pos (by norm_num : (0 : ℚ) < 1)]; linarith
  have hrows : scenarioA.rows = 2 := rfl
  have hcols : scenarioA.cols = 2 := rfl
  rw [inverse, hrows, hcols, if_pos rfl, hcopy, Option.some_bind]
  rw [inverseFrom, hs0, Option.some_bind]
  simp only [hn6, if_false, ne_eq, one_ne_zero, not_false_eq_true, if_true]
  rw [hsw, Option.some_bind, hp0, Option.some_bind]
  rw [inverseFrom, hs1, Option.some_bind]
  simp only [hn1, if_false, ne_eq, not_true_eq_false, Option.some_bind]
  rw [hp1, Option.some_bind, inverseFrom]
  exact hex

/-- Witness of C3 at `EPS = 1/1000`. -/
theorem inverse_scenario_witness :
    (1 / 1000 : ℚ) ≤ 1 ∧
    inverse (1 / 1000) scenarioA = some scenarioInv ∧
    prod scenarioA scenarioInv = some identity2 ∧ eye 2 1 = some identity2 :=
  ⟨by norm_num, inverse_scenario (1 / 1000) (by norm_num)⟩

/-- C1 fails on the code: for the cyclic permutation matrix `M = [[0,1,0],[0,0,1],[1,0,0]]`
(built by the array constructor) and `EPS = 1/1000`, `inverse(M)` returns a non-empty 3-by-3
result, namely `M` itself, and `prod(M, inverse(M))` is `[[0,0,1],[1,0,0],[0,1,0]]`, not
`eye(3, 1)`. The true inverse is the transpose: `prod(M, transpose(M))` is `eye(3, 1)`.
The elimination ends with the working matrix `eye(3, 1)` and the pivot rows `2, 2, 2`; the
loop 'Exchanging back' swaps the columns for `k = 0, 1, 2`, which gives `M`, whereas the swaps
taken for `k = 1` and then `k = 0` give the transpose. -/
theorem inverse_round_trip_fails :
    Matrix.ofArray 3 3 [0, 1, 0, 0, 0, 1, 1, 0, 0] = some cyclic3 ∧
    inverse (1 / 1000) cyclic3 = some cyclic3 ∧ cyclic3.rows = 3 ∧ cyclic3.cols = 3 ∧
    prod cyclic3 cyclic3 = some cyclic3T ∧ eye 3 1 = some identity3 ∧
    cyclic3T ≠ identity3 ∧ cyclic3T.get 0 0 = some 0 ∧ identity3.get 0 0 = some 1 ∧
    transpose cyclic3 = some cyclic3T ∧ prod cyclic3 cyclic3T = some identity3 ∧
    exchangeBack identity3 3 [2, 2, 2] = some cyclic3 ∧
    (swapColumns identity3 3 1 2).bind (fun m => swapColumns m 3 0 2) = some cyclic3T := by
  decide!

theorem addScalar_ofFn {α : Type} [Zero α] [Add α] (r c : Nat) (g : Nat → Nat → α) (x : α) :
    addScalar (Matrix.ofFn r c g) x = some (Matrix.ofFn r c fun i j => g i j + x) := by
  unfold addScalar
  simp only [Matrix.cols_ofFn, Matrix.rows_ofFn, Matrix.zeros_eq, Option.some_bind]
  apply Matrix.fill_loops_ofFn r c
    (fun i j tmp => ((Matrix.ofFn r c g).get i j).bind fun a => tmp.set i j (a + x))
  intro i j cells hi hj hlen
  simp only [Matrix.get_ofFn r c g i j hi hj, Option.some_bind]
  exact Matrix.set_ofCells r c cells i j _ hi hj hlen

theorem mulScalar_ofFn {α : Type} [Zero α] [Mul α] (r c : Nat) (g : Nat → Nat → α) (x : α) :
    mulScalar (Matrix.ofFn r c g) x = some (Matrix.ofFn r c fun i j => g i j * x) := by
  unfold mulScalar
  simp only [Matrix.cols_ofFn, Matrix.rows_ofFn, Matrix.zeros_eq, Option.some_bind]
  apply Matrix.fill_loops_ofFn r c
    (fun i j tmp => ((Matrix.ofFn r c g).get i j).bind fun a => tmp.set i j (a * x))
  intro i j cells hi hj hlen
  simp only [Matrix.get_ofFn r c g i j hi hj, Option.some_bind]
  exact Matrix.set_ofCells r c cells i j _ hi hj hlen

theorem subMatrix_ofFn {α : Type} [Zero α] [Sub α] (r c : Nat) (g h : Nat → Nat → α) :
    subMatrix (Matrix.ofFn r c g) (Matrix.ofFn r c h) =
      some (Matrix.ofFn r c fun i j => g i j - h i j) := by
  unfold subMatrix
  simp only [Matrix.cols_ofFn, Matrix.rows_ofFn, Matrix.zeros_eq, Option.some_bind, and_self,
    if_true]
  apply Matrix.fill_loops_ofFn r c
    (fun i j tmp => ((Matrix.ofFn r c g).get i j).bind fun a =>
      ((Matrix.ofFn r c h).get i j).bind fun b => tmp.set i j (a - b))
  intro i j cells hi hj hlen
  simp only [Matrix.get_ofFn r c g i j hi hj, Matrix.get_ofFn r c h i j hi hj, Option.some_bind]
  exact Matrix.set_ofCells r c cells i j _ hi hj hlen

/-- C11. Elementwise identity laws over a ring: for every matrix `M`, the scalar sum `M + 0`
returns `M`, the scalar product `M * 1` returns `M`, and the difference `M - M` returns the
matrix of the same dimensions whose every element is `0`. -/
theorem elementwise_identities {α : Type} [Ring α] (M : Matrix α) (hM : M.Valid) :
    addScalar M 0 = some M ∧ mulScalar M 1 = some M ∧
    ∃ Z, subMatrix M M = some Z ∧ Z.rows = M.rows ∧ Z.cols = M.cols ∧
      (∀ i j, i < M.rows → j < M.cols → Z.get i j = some 0) ∧
      Matrix.zeros M.rows M.cols = some Z := by
  have eM := hM.eq_ofFn
  have h1 := addScalar_ofFn M.rows M.cols M.elem 0
  have h2 := mulScalar_ofFn M.rows M.cols M.elem 1
  have h3 := subMatrix_ofFn M.rows M.cols M.elem M.elem
  simp only [add_zero, mul_one, sub_self] at h1 h2 h3
  rw [← eM] at h1 h2 h3
  refine ⟨h1, h2, _, h3, rfl, rfl, fun i j hi hj => Matrix.get_ofFn _ _ _ i j hi hj, ?_⟩
  exact Matrix.zeros_eq M.rows M.cols

/-- Witness of C11 on the integer matrix `[[1,2],[3,4]]`. -/
theorem elementwise_identities_witness :
    sampleA.Valid ∧ addScalar sampleA 0 = some sampleA ∧ mulScalar sampleA 1 = some sampleA ∧
    ∃ Z, subMatrix sampleA sampleA = some Z ∧ Z.rows = sampleA.rows ∧ Z.cols = sampleA.cols ∧
      (∀ i j, i < sampleA.rows → j < sampleA.cols → Z.get i j = some 0) ∧
      Matrix.zeros sampleA.rows sampleA.cols = some Z :=
  ⟨sampleA_valid, elementwise_identities sampleA sampleA_valid⟩

theorem eye_ofFn {α : Type} [Zero α] (n : Nat) (x : α) :
    eye n x = some (Matrix.ofFn n n fun i j => if i = j then x else 0) := by
  obtain ⟨s', h1, h2⟩ := forLoop_inv
    (fun i (tmp : Matrix α) => tmp.set i i x)
    (fun t m => m = Matrix.ofFn n n fun a b => if a = b ∧ a < t then x else 0)
    0 n (Nat.zero_le _) (Matrix.ofFn n n fun _ _ => 0)
    (Matrix.ofFn_congr _ _ _ _ fun a b _ _ => by simp)
    (by
      rintro i t _ hi rfl
      refine ⟨_, Matrix.set_ofFn_eq n n _ _ i i x hi hi ?_, rfl⟩
      intro a b _ _
      by_cases ha : a = i
      · subst ha
        by_cases hb : b = a
        · simp [hb]
        · have hb' : ¬ a = b := fun h => hb h.symm
          simp [hb, hb']
      · have h1 : a < i + 1 ↔ a < i := by omega
        simp [ha, h1])
  rw [eye, Matrix.zeros_eq, Option.some_bind, h1, h2]
  exact congrArg some (Matrix.ofFn_congr _ _ _ _ fun a b ha _ => by simp [ha])

/-- C12. `eye(n, x)` is the scaled identity: for every `n` and `x` it returns an n-by-n matrix
whose element `[i][j]` is `x` when `i == j` and `0` otherwise. -/
theorem eye_scaled_identity {α : Type} [Zero α] (n : Nat) (x : α) :
    ∃ E, eye n x = some E ∧ E.rows = n ∧ E.cols = n ∧
      ∀ i j, i < n → j < n → E.get i j = some (if i = j then x else 0) :=
  ⟨_, eye_ofFn n x, rfl, rfl, fun i j hi hj => Matrix.get_ofFn _ _ _ i j hi hj⟩

/-- Witness of C12: `eye(3, 1)` over the rationals is `[[1,0,0],[0,1,0],[0,0,1]]`. -/
theorem eye_scaled_identity_witness :
    eye 3 (1 : ℚ) = some identity3 ∧
    ∃ E, eye 3 (1 : ℚ) = some E ∧ E.rows = 3 ∧ E.cols = 3 ∧
      ∀ i j, i < 3 → j < 3 → E.get i j = some (if i = j then 1 else 0) :=
  ⟨by decide!, eye_scaled_identity 3 1⟩

theorem loopFrom_shift {σ : Type} (body : Nat → σ → Option σ) :
    ∀ (n i : Nat) (s : σ),
      loopFrom body (i + 1) n s = loopFrom (fun t => body (t + 1)) i n s := by
  intro n
  induction n with
  | zero => intro i s; rfl
  | succ n ih =>
    intro i s
    simp only [loopFrom]
    cases body (i + 1) s with
    | none => rfl
    | some t => simp only [Option.some_bind]; exact ih (i + 1) t

theorem forLoop_shift {σ : Type} (body : Nat → σ → Option σ) (n : Nat) (s : σ) :
    forLoop 1 (n + 1) body s = forLoop 0 n (fun t => body (t + 1)) s := by
  unfold forLoop
  rw [Nat.add_sub_cancel, Nat.sub_zero]
  exact loopFrom_shift body n 0 s

namespace Vector

variable {α : Type}

theorem size_ofFn (n : Nat) (g : Nat → α) : (ofFn n g).size = n := by
  simp [size, ofFn]

theorem dim_ofFn (n : Nat) (g : Nat → α) : (ofFn n g).dim = n := by
  simp [dim, ofFn]

theorem vec_load_ofFn (n : Nat) (g : Nat → α) (i : Nat) (hi : i < n) :
    (ofFn n g).load (i : Int) = some (g i) := by
  simp [load, ofFn, hi]

theorem vec_get_ofFn (n : Nat) (g : Nat → α) (i : Nat) (hi : i < n) :
    (ofFn n g).get i = some (g i) :=
  vec_load_ofFn n g i hi

theorem vec_get1_ofFn (n : Nat) (g : Nat → α) (i : Nat) (hi : i < n) :
    (ofFn n g).get1 (i + 1) = some (g i) := by
  have h : (((i + 1 : Nat) : Int) - 1) = (i : Int) := by push_cast; ring
  rw [get1, h]
  exact vec_load_ofFn n g i hi

theorem vec_elem_ofFn [Zero α] (n : Nat) (g : Nat → α) (i : Nat) (hi : i < n) :
    (ofFn n g).elem i = g i := by
  simp [elem, vec_get_ofFn n g i hi]

theorem set_mk (cells : List (Option α)) (i : Nat) (x : α) (hi : i < cells.length) :
    (Vector.mk cells).set i x = some (Vector.mk (cells.set i (some x))) := by
  simp [set, hi]

theorem set1_mk (cells : List (Option α)) (i : Nat) (x : α) (hi : i < cells.length) :
    (Vector.mk cells).set1 (i + 1) x = some (Vector.mk (cells.set i (some x))) := by
  simp [set1, set, hi]

theorem vec_ofFn_congr (n : Nat) (g g' : Nat → α) (h : ∀ i, i < n → g i = g' i) :
    ofFn n g = ofFn n g' := by
  unfold ofFn
  congr 1
  apply List.map_congr_left
  intro i hi
  rw [List.mem_range] at hi
  rw [h i hi]

theorem fill_loop (n : Nat) (body : Nat → Vector α → Option (Vector α)) (g : Nat → α)
    (hbody : ∀ i (cells : List (Option α)), i < n → cells.length = n →
      body i (Vector.mk cells) = some (Vector.mk (cells.set i (some (g i)))))
    (cells : List (Option α)) (hlen : cells.length = n) :
    forLoop 0 n body (Vector.mk cells) = some (ofFn n g) := by
  obtain ⟨s', h1, cells', h2, h3, h4⟩ := forLoop_inv body
    (fun t v => ∃ cells' : List (Option α), v = Vector.mk cells' ∧ cells'.length = n ∧
      ∀ o, o < t → cells'[o]? = some (some (g o)))
    0 n (Nat.zero_le _) (Vector.mk cells) ⟨cells, rfl, hlen, by intro o ho; omega⟩
    (by
      rintro i t _ hi ⟨cells1, rfl, hl1, hc1⟩
      refine ⟨_, hbody i cells1 hi hl1, _, rfl, by simpa using hl1, ?_⟩
      intro o ho
      rw [List.getElem?_set]
      by_cases hoe : i = o
      · subst hoe; simp [hl1, hi]
      · simp only [hoe, if_false]; exact hc1 o (by omega))
  rw [h1, h2]
  unfold ofFn
  congr 2
  apply List.ext_getElem?
  intro o
  by_cases ho : o < n
  · rw [h4 o ho]; simp [ho]
  · rw [List.getElem?_eq_none (by omega), List.getElem?_eq_none (by simp; omega)]

theorem Valid.eq_vec_ofFn [Zero α] {v : Vector α} (h : v.Valid) : v = ofFn v.size v.elem := by
  obtain ⟨l, rfl⟩ := h
  unfold ofFn ofList
  congr 1
  apply List.ext_getElem
  · simp [size, ofList]
  · intro i h1 h2
    simp only [List.length_map] at h1
    simp [elem, get, load, ofList, h1]

theorem vec_valid_ofFn (n : Nat) (g : Nat → α) : (ofFn n g).Valid :=
  ⟨(List.range n).map g, by simp [ofFn, ofList]⟩

end Vector

theorem diag_ofFn {α : Type} [Zero α] (r c : Nat) (g : Nat → Nat → α) :
    diag (Matrix.ofFn r c g) = some (Vector.ofFn (min r c) fun i => g i i) := by
  have hmin : (if (Matrix.ofFn r c g).rows > (Matrix.ofFn r c g).cols
      then (Matrix.ofFn r c g).cols else (Matrix.ofFn r c g).rows) = min r c := by
    simp only [Matrix.rows_ofFn, Matrix.cols_ofFn]
    split_ifs with h
    · omega
    · omega
  unfold diag
  simp only [hmin]
  apply Vector.fill_loop (min r c)
    (fun i tmp => ((Matrix.ofFn r c g).get i i).bind fun x => tmp.set i x) _ _ _ (by simp [Vector.create])
  intro i cells hi hlen
  have hir : i < r := by omega
  have hic : i < c := by omega
  simp only [Matrix.get_ofFn r c g i i hir hic, Option.some_bind]
  exact Vector.set_mk cells i _ (by omega)

/-- C13. `diag(A)` extracts the main diagonal: for every matrix `A`, square or not, it returns
a vector of length `min(A.rows(), A.cols())` whose 0-based element `i` is `A[i][i]`; and the
diagonal of `eye(n, x)` is the vector of `n` elements `x`. -/
theorem diag_main_diagonal {α : Type} [Zero α] (A : Matrix α) (hA : A.Valid) (n : Nat) (x : α) :
    (∃ d, diag A = some d ∧ d.size = min A.rows A.cols ∧
      ∀ i, i < min A.rows A.cols → d.get i = A.get i i) ∧
    ∃ E d, eye n x = some E ∧ diag E = some d ∧ d.size = n ∧ d = Vector.ofFn n (fun _ => x) ∧
      ∀ i, i < n → d.get i = some x := by
  constructor
  · have eA := hA.eq_ofFn
    have h := diag_ofFn A.rows A.cols A.elem
    rw [← eA] at h
    refine ⟨_, h, Vector.size_ofFn _ _, ?_⟩
    intro i hi
    rw [Vector.vec_get_ofFn _ _ i hi]
    conv_rhs => rw [eA]
    rw [Matrix.get_ofFn _ _ _ i i (by omega) (by omega)]
  · have h := diag_ofFn n n (fun i j => if i = j then x else (0 : α))
    rw [Nat.min_self] at h
    have hE : Vector.ofFn n (fun i => if i = i then x else (0 : α)) = Vector.ofFn n fun _ => x :=
      Vector.vec_ofFn_congr _ _ _ fun i _ => by simp
    rw [hE] at h
    exact ⟨_, _, eye_ofFn n x, h, Vector.size_ofFn _ _, rfl,
      fun i hi => Vector.vec_get_ofFn _ _ i hi⟩

/-- Witness of C13 over the rationals: the diagonal of `[[4,3],[6,3]]`, and
`diag(eye(3, 1)) == [1,1,1]`. -/
theorem diag_main_diagonal_witness :
    scenarioA.Valid ∧ eye 3 (1 : ℚ) = some identity3 ∧
    diag identity3 = some (Vector.ofList [1, 1, 1]) ∧
    (∃ d, diag scenarioA = some d ∧ d.size = min scenarioA.rows scenarioA.cols ∧
      ∀ i, i < min scenarioA.rows scenarioA.cols → d.get i = scenarioA.get i i) ∧
    ∃ E d, eye 3 (1 : ℚ) = some E ∧ diag E = some d ∧ d.size = 3 ∧
      d = Vector.ofFn 3 (fun _ => 1) ∧ ∀ i, i < 3 → d.get i = some 1 :=
  ⟨scenarioA_valid, by decide!, by decide!, diag_main_diagonal scenarioA scenarioA_valid 3 1⟩

section VectorProductLemmas

variable {α : Type} [Zero α] [Add α] [Mul α]

theorem tranProdVecDot_ofFn (r c : Nat) (g : Nat → Nat → α) (f : Nat → α) (i : Nat)
    (hi : i < c) :
    tranProdVecDot (Matrix.ofFn r c g) (Vector.ofFn r f) i r 0 =
      some (sumTo (fun j => g j i * f j) r) := by
  obtain ⟨s', h1, h2⟩ := forLoop_inv
    (fun j sum => ((Matrix.ofFn r c g).get j i).bind fun a =>
      ((Vector.ofFn r f).get j).bind fun x => some (sum + a * x))
    (fun k s => s = sumTo (fun j => g j i * f j) k)
    0 r (Nat.zero_le _) 0 rfl
    (by
      rintro k t _ hk rfl
      refine ⟨_, ?_, rfl⟩
      show ((Matrix.ofFn r c g).get k i).bind _ = _
      rw [Matrix.get_ofFn r c g k i hk hi]
      simp only [Option.some_bind]
      rw [Vector.vec_get_ofFn r f k hk]
      rfl)
  rw [tranProdVecDot, h1, h2]

theorem tranProdVec_ofFn (r c : Nat) (g : Nat → Nat → α) (f : Nat → α) :
    tranProdVec (Matrix.ofFn r c g) (Vector.ofFn r f) =
      some (Vector.ofFn c fun i => sumTo (fun j => g j i * f j) r) := by
  unfold tranProdVec
  simp only [Matrix.cols_ofFn, Matrix.rows_ofFn, Vector.dim_ofFn, if_true]
  apply Vector.fill_loop c
    (fun i tmp => (tranProdVecDot (Matrix.ofFn r c g) (Vector.ofFn r f) i r 0).bind fun sum =>
      tmp.set i sum) _ _ _ (by simp [Vector.create])
  intro i cells hi hlen
  simp only [tranProdVecDot_ofFn r c g f i hi, Option.some_bind]
  exact Vector.set_mk cells i _ (by omega)

theorem prodVecDot_ofFn (m n : Nat) (g : Nat → Nat → α) (f : Nat → α) (i : Nat) (hi : i < m) :
    ∃ p q, prodVecDot (Matrix.ofFn m n g) (Vector.ofFn n f) n
        (0, ((i * n + 0 : Nat) : Int), 0) =
      some (sumTo (fun j => g i j * f j) n, p, q) := by
  obtain ⟨s', h1, h2⟩ := forLoop_inv
    (fun _ (s : α × Int × Int) => ((Matrix.ofFn m n g).load s.2.1).bind fun a =>
      ((Vector.ofFn n f).load s.2.2).bind fun x => some (s.1 + a * x, s.2.1 + 1, s.2.2 + 1))
    (fun k s => s = (sumTo (fun j => g i j * f j) k, ((i * n + k : Nat) : Int), (k : Int)))
    0 n (Nat.zero_le _) (0, ((i * n + 0 : Nat) : Int), 0) rfl
    (by
      rintro k t _ hk rfl
      refine ⟨_, ?_, rfl⟩
      show ((Matrix.ofFn m n g).load ((i * n + k : Nat) : Int)).bind _ = _
      rw [Matrix.load_ofFn m n g i k hi hk]
      simp only [Option.some_bind]
      rw [Vector.vec_load_ofFn n f k hk]
      simp only [Option.some_bind, Option.some.injEq, sumTo, Prod.mk.injEq, true_and]
      constructor
      · push_cast; ring
      · push_cast; ring)
  exact ⟨_, _, by rw [prodVecDot, h1, h2]⟩

theorem prodVecInto_ofFn (m n : Nat) (g : Nat → Nat → α) (f : Nat → α) (c : Vector α) :
    prodVecInto (Matrix.ofFn m n g) (Vector.ofFn n f) c =
      some (Vector.ofFn m fun i => sumTo (fun j => g i j * f j) n) := by
  unfold prodVecInto
  simp only [Matrix.cols_ofFn, Matrix.rows_ofFn, Vector.size_ofFn, if_true]
  have hres : ∃ cells : List (Option α), c.resize m = Vector.mk cells ∧ cells.length = m := by
    unfold Vector.resize
    split_ifs with h
    · exact ⟨c.pv0, rfl, h.symm⟩
    · exact ⟨_, rfl, by simp⟩
  obtain ⟨cells, hc, hl⟩ := hres
  rw [hc]
  apply Vector.fill_loop m
    (fun i c => ((Matrix.ofFn m n g).addr0 i 0).bind fun pRow =>
      (prodVecDot (Matrix.ofFn m n g) (Vector.ofFn n f) n (0, pRow, 0)).bind fun s =>
        c.set i s.1) _ _ _ hl
  intro i cells' hi hlen
  obtain ⟨p, q, hd⟩ := prodVecDot_ofFn m n g f i hi
  simp only [Matrix.ofFn, Matrix.addr0_ofCells m n _ i 0 hi, Option.some_bind]
  simp only [Matrix.ofFn] at hd
  rw [hd]
  simp only [Option.some_bind]
  exact Vector.set_mk cells' i _ (by omega)

theorem prodVec_ofFn (m n : Nat) (g : Nat → Nat → α) (f : Nat → α) :
    prodVec (Matrix.ofFn m n g) (Vector.ofFn n f) =
      some (Vector.ofFn m fun i => sumTo (fun j => g i j * f j) n) := by
  unfold prodVec
  simp only [Matrix.cols_ofFn, Vector.dim_ofFn, if_true]
  exact prodVecInto_ofFn m n g f _

end VectorProductLemmas
/-- C16. The matrix-vector transpose product agrees with the plain product: for every matrix
`A` and vector `v` with `v.dim() == A.rows()`, `tranProd(A, v)` and `prod(transpose(A), v)`
return the same vector, of length `A.cols()`, whose element `i` is the sum over `j` of
`A[j][i]*v[j]`; and `prod(T, v)` has element `i` equal to the sum over `j` of `T[i][j]*v[j]`. -/
theorem tranProdVec_eq_prodVec_transpose {α : Type} [Zero α] [Add α] [Mul α]
    (A : Matrix α) (v : Vector α) (hA : A.Valid) (hv : v.Valid) (hdim : v.dim = A.rows) :
    ∃ T r, transpose A = some T ∧ prodVec T v = some r ∧ tranProdVec A v = some r ∧
      r.size = A.cols ∧
      (∀ i, i < A.cols → r.get i = some (sumTo (fun j => A.elem j i * v.elem j) A.rows)) ∧
      (∀ i, i < T.rows → r.get i = some (sumTo (fun j => T.elem i j * v.elem j) T.cols)) := by
  have eA := hA.eq_ofFn
  have ev := hv.eq_vec_ofFn
  have hsz : v.size = A.rows := hdim
  rw [hsz] at ev
  have h1 := transpose_ofFn A.rows A.cols A.elem
  have h2 := prodVec_ofFn A.cols A.rows (fun i j => A.elem j i) v.elem
  have h3 := tranProdVec_ofFn A.rows A.cols A.elem v.elem
  rw [← eA] at h1 h3
  rw [← ev] at h2 h3
  refine ⟨_, _, h1, h2, h3, Vector.size_ofFn _ _, fun i hi => Vector.vec_get_ofFn _ _ i hi, ?_⟩
  intro i hi
  have hi' : i < A.cols := hi
  rw [Vector.vec_get_ofFn _ _ i hi']
  simp only [Matrix.cols_ofFn]
  congr 1
  have hsum : ∀ (K : Nat) (f f' : Nat → α), (∀ j, j < K → f j = f' j) →
      sumTo f K = sumTo f' K := by
    intro K f f' h
    induction K with
    | zero => rfl
    | succ K ih => rw [sumTo, sumTo, ih (fun j hj => h j (by omega)), h K (by omega)]
  apply hsum
  intro j hj
  rw [Matrix.elem_ofFn _ _ _ i j hi' hj]

/-- Witness of C16: `A = [[0,1,5],[2,0,7]]` and `v = [1,2]`. -/
theorem tranProdVec_eq_prodVec_transpose_witness :
    sampleB.Valid ∧ (Vector.ofList [(1 : Int), 2]).Valid ∧
    (Vector.ofList [(1 : Int), 2]).dim = sampleB.rows ∧
    tranProdVec sampleB (Vector.ofList [1, 2]) = some (Vector.ofList [4, 1, 19]) ∧
    ∃ T r, transpose sampleB = some T ∧ prodVec T (Vector.ofList [1, 2]) = some r ∧
      tranProdVec sampleB (Vector.ofList [1, 2]) = some r ∧ r.size = sampleB.cols ∧
      (∀ i, i < sampleB.cols → r.get i = some (sumTo (fun j =>
        sampleB.elem j i * (Vector.ofList [(1 : Int), 2]).elem j) sampleB.rows)) ∧
      (∀ i, i < T.rows → r.get i = some (sumTo (fun j =>
        T.elem i j * (Vector.ofList [(1 : Int), 2]).elem j) T.cols)) :=
  ⟨sampleB_valid, ⟨[1, 2], rfl⟩, rfl, by decide,
    tranProdVec_eq_prodVec_transpose sampleB (Vector.ofList [1, 2]) sampleB_valid ⟨[1, 2], rfl⟩
      rfl⟩

namespace Matrix

variable {α : Type}

theorem addr1_ofCells (r c : Nat) (cells : List (Option α)) (i j : Nat) (hi : i < r) :
    (ofCells r c cells).addr1 (i + 1) (j + 1) = some (((i * c + j : Nat) : Int)) := by
  have h : ((0 : Int) - 1 + ((i + 1 : Nat) : Int)) = (i : Int) := by push_cast; ring
  simp only [addr1, row1, ofCells, initRows_eq, h]
  rw [Ptr.read_live_map _ _ _ hi]
  simp only [Option.map_some', Option.some.injEq]
  push_cast
  ring

theorem get1_ofFn (r c : Nat) (g : Nat → Nat → α) (i j : Nat) (hi : i < r) (hj : j < c) :
    (ofFn r c g).get1 (i + 1) (j + 1) = some (g i j) := by
  have h := load_ofFn r c g i j hi hj
  rw [get1, ofFn, addr1_ofCells r c _ i j hi]
  exact h

theorem store1_ofFn (r c : Nat) (g : Nat → Nat → α) (i j : Nat) (x : α) (hi : i < r) :
    ((ofFn r c g).addr1 (i + 1) (j + 1)).bind (fun p => (ofFn r c g).store p x) =
      (ofFn r c g).set i j x := by
  rw [set, ofFn, addr1_ofCells r c _ i j hi, addr0_ofCells r c _ i j hi]

theorem setRow_ofFn (r c : Nat) (g : Nat → Nat → α) (f : Nat → α) (i : Nat) (hi : i < r) :
    (ofFn r c g).setRow (Vector.ofFn c f) (i + 1) =
      some (ofFn r c fun a b => if a = i then f b else g a b) := by
  obtain ⟨s', h1, h2⟩ := forLoop_inv
    (fun t (m : Matrix α) => ((Vector.ofFn c f).get1 (t + 1)).bind fun x =>
      (m.addr1 (i + 1) (t + 1)).bind fun p => m.store p x)
    (fun t m => m = ofFn r c fun a b => if a = i ∧ b < t then f b else g a b)
    0 c (Nat.zero_le _) (ofFn r c g)
    (ofFn_congr _ _ _ _ fun a b _ _ => by simp)
    (by
      rintro t m _ ht rfl
      refine ⟨_, ?_, rfl⟩
      show ((Vector.ofFn c f).get1 (t + 1)).bind _ = _
      rw [Vector.vec_get1_ofFn c f t ht, Option.some_bind, store1_ofFn r c _ i t _ hi]
      apply set_ofFn_eq r c _ _ i t _ hi ht
      intro a b _ _
      by_cases hb : b = t
      · subst hb; by_cases ha : a = i <;> simp [ha]
      · have h1 : b < t + 1 ↔ b < t := by omega
        simp [hb, h1])
  show forLoop 1 ((ofFn r c g).nColumn + 1) _ _ = _
  have hc : (ofFn r c g).nColumn = c := rfl
  rw [hc, forLoop_shift, h1, h2]
  exact congrArg some (ofFn_congr _ _ _ _ fun a b _ hb => by simp [hb])

theorem getRow_ofFn (r c : Nat) (g : Nat → Nat → α) (i : Nat) (hi : i < r) :
    (ofFn r c g).getRow (i + 1) = some (Vector.ofFn c fun j => g i j) := by
  show forLoop 1 ((ofFn r c g).nColumn + 1) _ _ = _
  have hc : (ofFn r c g).nColumn = c := rfl
  rw [hc, forLoop_shift]
  apply Vector.fill_loop c
    (fun t tmp => ((ofFn r c g).get1 (i + 1) (t + 1)).bind fun x => tmp.set1 (t + 1) x)
    _ _ _ (by simp)
  intro t cells ht hlen
  simp only [get1_ofFn r c g i t hi ht, Option.some_bind]
  exact Vector.set1_mk cells t _ (by omega)

end Matrix

/-- C17. Row injection and extraction: for every matrix `M`, every 1-based row index `r` with
`1 <= r <= M.rows()` and every vector `v` with `v.dim() == M.cols()`, `M.setRow(v, r)` returns,
`M.getRow(r)` then returns `v`, the dimensions of `M` are unchanged, row `r` holds the
elements of `v`, and every element of `M` outside row `r` is unchanged. -/
theorem setRow_getRow {α : Type} [Zero α] (M : Matrix α) (v : Vector α) (r : Nat)
    (hM : M.Valid) (hv : v.Valid) (hr1 : 1 ≤ r) (hr2 : r ≤ M.rows) (hdim : v.dim = M.cols) :
    ∃ M', M.setRow v r = some M' ∧ M'.getRow r = some v ∧
      M'.rows = M.rows ∧ M'.cols = M.cols ∧
      (∀ j, j < M.cols → M'.get (r - 1) j = v.get j) ∧
      ∀ i j, i < M.rows → j < M.cols → i + 1 ≠ r → M'.get i j = M.get i j := by
  have eM := hM.eq_ofFn
  have ev := hv.eq_vec_ofFn
  have hsz : v.size = M.cols := hdim
  rw [hsz] at ev
  obtain ⟨i, rfl⟩ : ∃ i, r = i + 1 := ⟨r - 1, by omega⟩
  have hi : i < M.rows := by omega
  have h1 := Matrix.setRow_ofFn M.rows M.cols M.elem v.elem i hi
  have h2 := Matrix.getRow_ofFn M.rows M.cols (fun a b => if a = i then v.elem b else M.elem a b)
    i hi
  simp only [if_true] at h2
  rw [← eM, ← ev] at h1
  rw [← ev] at h2
  refine ⟨_, h1, h2, rfl, rfl, ?_, ?_⟩
  · intro j hj
    rw [Nat.add_sub_cancel, Matrix.get_ofFn _ _ _ i j hi hj]
    simp only [if_true]
    conv_rhs => rw [ev]
    rw [Vector.vec_get_ofFn _ _ j hj]
  · intro a j ha hj hne
    have hai : ¬ a = i := by omega
    rw [Matrix.get_ofFn _ _ _ a j ha hj]
    simp only [hai, if_false]
    conv_rhs => rw [eM]
    rw [Matrix.get_ofFn _ _ _ a j ha hj]

/-- Witness of C17: row 2 of `[[0,1,5],[2,0,7]]` is replaced by `[7,8,9]`. -/
theorem setRow_getRow_witness :
    sampleB.Valid ∧ (Vector.ofList [(7 : Int), 8, 9]).Valid ∧ 1 ≤ 2 ∧ 2 ≤ sampleB.rows ∧
    (Vector.ofList [(7 : Int), 8, 9]).dim = sampleB.cols ∧
    ∃ M', sampleB.setRow (Vector.ofList [7, 8, 9]) 2 = some M' ∧
      M'.getRow 2 = some (Vector.ofList [7, 8, 9]) ∧
      M'.rows = sampleB.rows ∧ M'.cols = sampleB.cols ∧
      (∀ j, j < sampleB.cols → M'.get (2 - 1) j = (Vector.ofList [(7 : Int), 8, 9]).get j) ∧
      ∀ i j, i < sampleB.rows → j < sampleB.cols → i + 1 ≠ 2 → M'.get i j = sampleB.get i j :=
  ⟨sampleB_valid, ⟨[7, 8, 9], rfl⟩, by decide, by decide, rfl,
    setRow_getRow sampleB (Vector.ofList [7, 8, 9]) 2 sampleB_valid ⟨[7, 8, 9], rfl⟩
      (by decide) (by decide) rfl⟩

section TraceLemmas

variable {α : Type} [LinearOrderedField α]

theorem inverseFrom_eq_steps (EPS : α) (rows : Nat) :
    ∀ (n k : Nat) (invA : Matrix α) (index : List Nat),
      inverseFrom EPS rows n k invA index =
        (inverseSteps EPS rows n k invA index).bind fun r =>
          match r with
          | none => Matrix.zeros 0 0
          | some p => exchangeBack p.1 rows p.2 := by
  intro n
  induction n with
  | zero => intro k invA index; rfl
  | succ n ih =>
    intro k invA index
    rw [inverseFrom, inverseSteps]
    cases pivotSearch invA rows k with
    | none => rfl
    | some s =>
      simp only [Option.some_bind]
      by_cases hlt : |s.1| < EPS
      · simp only [hlt, if_true, Option.some_bind]
      · simp only [hlt, if_false]
        cases (if s.2 ≠ k then swapRows invA rows k s.2 else some invA) with
        | none => rfl
        | some m =>
          simp only [Option.some_bind]
          cases pivotStep m rows k with
          | none => rfl
          | some m' => simp only [Option.some_bind]; exact ih (k + 1) m' _

theorem inverseSteps_index (EPS : α) (rows : Nat) :
    ∀ (n k : Nat) (invA W : Matrix α) (index ix : List Nat),
      inverseSteps EPS rows n k invA index = some (some (W, ix)) →
      ix.length = index.length ∧ ∀ t, t < k → ix[t]? = index[t]? := by
  intro n
  induction n with
  | zero =>
    intro k invA W index ix h
    simp only [inverseSteps, Option.some.injEq, Prod.mk.injEq] at h
    rw [h.2]
    exact ⟨rfl, fun _ _ => rfl⟩
  | succ n ih =>
    intro k invA W index ix h
    rw [inverseSteps] at h
    cases hs : pivotSearch invA rows k with
    | none => rw [hs] at h; simp at h
    | some s =>
      rw [hs] at h
      simp only [Option.some_bind] at h
      by_cases hlt : |s.1| < EPS
      · simp [hlt] at h
      · simp only [hlt, if_false] at h
        cases hm : (if s.2 ≠ k then swapRows invA rows k s.2 else some invA) with
        | none => rw [hm] at h; simp at h
        | some m =>
          rw [hm] at h
          simp only [Option.some_bind] at h
          cases hp : pivotStep m rows k with
          | none => rw [hp] at h; simp at h
          | some m' =>
            rw [hp] at h
            simp only [Option.some_bind] at h
            obtain ⟨h1, h2⟩ := ih (k + 1) m' W _ ix h
            refine ⟨by simpa using h1, ?_⟩
            intro t ht
            rw [h2 t (by omega), List.getElem?_set]
            have : ¬ k = t := by omega
            simp [this]

theorem inverseSteps_pivot (EPS : α) (rows : Nat) (n k : Nat) (invA W : Matrix α)
    (index ix : List Nat) (s : α × Nat) (hk : k < index.length)
    (hs : pivotSearch invA rows k = some s)
    (h : inverseSteps EPS rows (n + 1) k invA index = some (some (W, ix))) :
    ix[k]? = some s.2 ∧ ¬ |s.1| < EPS ∧
      ∃ m m', (if s.2 ≠ k then swapRows invA rows k s.2 else some invA) = some m ∧
        pivotStep m rows k = some m' ∧
        inverseSteps EPS rows n (k + 1) m' (index.set k s.2) = some (some (W, ix)) := by
  rw [inverseSteps, hs] at h
  simp only [Option.some_bind] at h
  by_cases hlt : |s.1| < EPS
  · simp [hlt] at h
  · simp only [hlt, if_false] at h
    cases hm : (if s.2 ≠ k then swapRows invA rows k s.2 else some invA) with
    | none => rw [hm] at h; simp at h
    | some m =>
      rw [hm] at h
      simp only [Option.some_bind] at h
      cases hp : pivotStep m rows k with
      | none => rw [hp] at h; simp at h
      | some m' =>
        rw [hp] at h
        simp only [Option.some_bind] at h
        obtain ⟨_, h2⟩ := inverseSteps_index EPS rows n (k + 1) m' W _ ix h
        refine ⟨?_, hlt, m, m', rfl, hp, h⟩
        rw [h2 k (by omega), List.getElem?_set]
        simp [hk]

end TraceLemmas

section NoExchange

variable {α : Type} [LinearOrderedField α]

theorem FullInv.init_state (n : Nat) (A : Nat → Nat → α) : FullInv n A A 0 := by
  intro x i _
  simp only [Nat.not_lt_zero, if_false, zero_add, ← Finset.range_eq_Ico, Finset.range_zero,
    Finset.sum_empty, Nat.zero_le, if_true]

theorem FullInv.pivot_step {n k : Nat} {A g : Nat → Nat → α} (h : FullInv n A g k)
    (hk : k < n) (hne : g k k ≠ 0) : FullInv n A (gPivot g k) (k + 1) := by
  intro x i hi
  have hrk := h x k hk
  have hri := h x i hi
  rw [Finset.sum_eq_sum_Ico_succ_bot hk] at hrk hri
  simp only [lt_self_iff_false, if_false, zero_add, le_refl, if_true] at hrk
  rw [Finset.sum_range_succ]
  by_cases hik : i = k
  · subst hik
    have hterm1 : ∀ j ∈ Finset.Ico (i + 1) n,
        gPivot g i i j * x j = 1 / g i i * (g i j * x j) := by
      intro j hj
      have hji : j ≠ i := by rw [Finset.mem_Ico] at hj; omega
      simp only [gPivot, if_true, hji, if_false]
      ring
    have hterm2 : ∀ j ∈ Finset.range i,
        gPivot g i i j * (∑ m in Finset.range n, A j m * x m) =
          1 / g i i * (g i j * (∑ m in Finset.range n, A j m * x m)) := by
      intro j hj
      have hji : j ≠ i := by rw [Finset.mem_range] at hj; omega
      simp only [gPivot, if_true, hji, if_false]
      ring
    have hkk : gPivot g i i i = 1 / g i i := by simp [gPivot]
    rw [Finset.sum_congr rfl hterm1, Finset.sum_congr rfl hterm2, ← Finset.mul_sum,
      ← Finset.mul_sum, hkk]
    have hle : ¬ i + 1 ≤ i := by omega
    simp only [lt_add_one, if_true, hle, if_false, add_zero]
    field_simp
    linear_combination hrk
  · have hterm1 : ∀ j ∈ Finset.Ico (k + 1) n,
        gPivot g k i j * x j = g i j * x j + -(1 / g k k) * g i k * (g k j * x j) := by
      intro j hj
      have hjk : j ≠ k := by rw [Finset.mem_Ico] at hj; omega
      simp only [gPivot, hik, hjk, if_false]
      ring
    have hterm2 : ∀ j ∈ Finset.range k,
        gPivot g k i j * (∑ m in Finset.range n, A j m * x m) =
          g i j * (∑ m in Finset.range n, A j m * x m) +
            -(1 / g k k) * g i k * (g k j * (∑ m in Finset.range n, A j m * x m)) := by
      intro j hj
      have hjk : j ≠ k := by rw [Finset.mem_range] at hj; omega
      simp only [gPivot, hik, hjk, if_false]
      ring
    have hkk : gPivot g k i k = -(1 / g k k) * g i k := by simp [gPivot, hik]
    rw [Finset.sum_congr rfl hterm1, Finset.sum_congr rfl hterm2, Finset.sum_add_distrib,
      Finset.sum_add_distrib, ← Finset.mul_sum, ← Finset.mul_sum, hkk]
    have hlt : (i < k + 1) ↔ (i < k) := by omega
    have hle : (k + 1 ≤ i) ↔ (k ≤ i) := by omega
    simp only [hlt, hle]
    have hfield : -(1 / g k k) * g i k * g k k = - g i k := by field_simp
    linear_combination hri + (-(1 / g k k) * g i k) * hrk - x k * hfield

theorem FullInv.left_inverse {n : Nat} {A g : Nat → Nat → α} (h : FullInv n A g n)
    (i m : Nat) (hi : i < n) (hm : m < n) :
    ∑ j in Finset.range n, g i j * A j m = if i = m then 1 else 0 := by
  have h1 := h (fun j => if j = m then 1 else 0) i hi
  have hn : ¬ n ≤ i := by omega
  simp only [hi, if_true, Finset.Ico_self, Finset.sum_empty, add_zero, hn, if_false] at h1
  rw [h1]
  refine Finset.sum_congr rfl fun j _ => ?_
  congr 1
  simp [Finset.sum_ite_eq, hm]

theorem inverseSteps_noSwap (EPS : α) (hE : 0 < EPS) (n : Nat) (A : Nat → Nat → α) :
    ∀ (steps k : Nat) (g : Nat → Nat → α) (index ix : List Nat) (W : Matrix α),
      k + steps = n → index.length = n → FullInv n A g k →
      inverseSteps EPS n steps k (Matrix.ofFn n n g) index = some (some (W, ix)) →
      (∀ t, t < n → ix[t]? = some t) →
      ∃ g', W = Matrix.ofFn n n g' ∧ FullInv n A g' n := by
  intro steps
  induction steps with
  | zero =>
    intro k g index ix W hk _ hinv h _
    have hkn : k = n := by omega
    subst hkn
    simp only [inverseSteps, Option.some.injEq, Prod.mk.injEq] at h
    exact ⟨g, h.1.symm, hinv⟩
  | succ steps ih =>
    intro k g index ix W hk hlen hinv h hix
    have hkn : k < n := by omega
    obtain ⟨s, hs, _, _, h3⟩ := pivotSearch_ofFn n k g hkn
    obtain ⟨p1, p2, m, m', p3, p4, p5⟩ :=
      inverseSteps_pivot EPS n steps k _ W index ix s (by omega) hs h
    have hsk : s.2 = k := by
      rw [hix k hkn] at p1
      exact (Option.some.inj p1).symm
    have hpiv : g k k ≠ 0 := by
      intro h0
      rw [hsk, h0, abs_zero] at h3
      rw [h3] at p2
      exact p2 hE
    simp only [hsk, ne_eq, not_true_eq_false, if_false, Option.some.injEq] at p3
    subst p3
    rw [pivotStep_ofFn n k g hkn, Option.some.injEq] at p4
    subst p4
    exact ih (k + 1) _ _ ix W (by omega) (by simpa using hlen) (hinv.pivot_step hkn hpiv) p5
      hix

theorem exchangeBack_id {β : Type} [LinearOrderedField β] (W : Matrix β) (n : Nat)
    (ix : List Nat) (hix : ∀ t, t < n → ix[t]? = some t) : exchangeBack W n ix = some W := by
  obtain ⟨s', h1, h2⟩ := forLoop_inv
    (fun k (m : Matrix β) => ix[k]?.bind fun p =>
      if p ≠ k then swapColumns m n k p else some m)
    (fun _ m => m = W) 0 n (Nat.zero_le _) W rfl
    (by
      rintro k t _ hk rfl
      refine ⟨t, ?_, rfl⟩
      simp only [hix k hk, Option.some_bind, ne_eq, not_true_eq_false, if_false])
  rw [exchangeBack, h1, h2]

end NoExchange

theorem grid_right_inverse {α : Type} [Field α] (n : Nat) (A g : Nat → Nat → α)
    (h : ∀ i m, i < n → m < n → ∑ j in Finset.range n, g i j * A j m = if i = m then 1 else 0)
    (i m : Nat) (hi : i < n) (hm : m < n) :
    ∑ j in Finset.range n, A i j * g j m = if i = m then 1 else 0 := by
  let Wm : SquareMatrix n α := fun a b => g a b
  let Am : SquareMatrix n α := fun a b => A a b
  have hWA : Wm * Am = 1 := by
    funext a b
    rw [Matrix.mul_apply, Matrix.one_apply]
    have := h a b a.is_lt b.is_lt
    rw [Finset.sum_range] at this
    rw [this]
    simp only [Fin.ext_iff]
  have hAW : Am * Wm = 1 := Matrix.mul_eq_one_comm.mp hWA
  have h2 := congrFun (congrFun hAW ⟨i, hi⟩) ⟨m, hm⟩
  rw [Matrix.mul_apply, Matrix.one_apply] at h2
  rw [Finset.sum_range]
  simp only [Fin.mk.injEq] at h2
  exact h2

/-- C18. In-place Gauss-Jordan without exchanges is a two-sided inverse: over an ordered field
with `EPS > 0`, for every matrix `M` of order `n >= 1` on which the main loop of `inverse`
passes every step and records the pivot rows `index[k] == k` for all `k` (no row exchange),
`inverse(M)` returns an n-by-n matrix `R`, and both `prod(M, R)` and `prod(R, M)` return
`eye(n, 1)`. -/
theorem inverse_two_sided {α : Type} [LinearOrderedField α] (EPS : α) (hE : 0 < EPS)
    (M : Matrix α) (n : Nat) (hn : 1 ≤ n) (hM : M.Valid) (hr : M.rows = n) (hc : M.cols = n)
    (hix : pivotRows EPS M = some (List.range n)) :
    ∃ R E, inverse EPS M = some R ∧ R.rows = n ∧ R.cols = n ∧ eye n 1 = some E ∧
      prod M R = some E ∧ prod R M = some E := by
  have eM := hM.eq_ofFn
  rw [hr, hc] at eM
  have hsteps : ∃ W ix, inverseSteps EPS n n 0 (Matrix.ofFn n n M.elem) (List.replicate n 0) =
      some (some (W, ix)) ∧ ix = List.range n := by
    rw [eM] at hix
    unfold pivotRows at hix
    simp only [Matrix.rows_ofFn, Matrix.cols_ofFn, if_true, Matrix.copy_ofFn,
      Option.some_bind] at hix
    cases hst : inverseSteps EPS n n 0 (Matrix.ofFn n n M.elem) (List.replicate n 0) with
    | none => rw [hst] at hix; simp at hix
    | some r =>
      rw [hst] at hix
      cases r with
      | none => simp at hix
      | some p =>
        simp only [Option.some_bind, Option.map_some', Option.some.injEq] at hix
        exact ⟨p.1, p.2, rfl, hix⟩
  obtain ⟨W, ix, hst, hixr⟩ := hsteps
  have hixt : ∀ t, t < n → ix[t]? = some t := by
    intro t ht
    rw [hixr, List.getElem?_range ht]
  obtain ⟨g', hW, hfull⟩ := inverseSteps_noSwap EPS hE n M.elem n 0 M.elem _ ix W (by omega)
    (by simp) (FullInv.init_state n M.elem) hst hixt
  have hinv : inverse EPS M = some (Matrix.ofFn n n g') := by
    rw [eM]
    unfold inverse
    simp only [Matrix.rows_ofFn, Matrix.cols_ofFn, if_true, Matrix.copy_ofFn, Option.some_bind]
    rw [inverseFrom_eq_steps, hst, Option.some_bind]
    show exchangeBack W n ix = _
    rw [exchangeBack_id W n ix hixt, hW]
  have hleft := fun i m hi hm => hfull.left_inverse i m hi hm
  have hright := grid_right_inverse n M.elem g' hleft
  have p1 := prod_ofFn n n n M.elem g'
  have p2 := prod_ofFn n n n g' M.elem
  rw [← eM] at p1 p2
  have e1 : Matrix.ofFn n n (fun i j => sumTo (fun k => M.elem i k * g' k j) n) =
      Matrix.ofFn n n fun i j => if i = j then (1 : α) else 0 :=
    Matrix.ofFn_congr _ _ _ _ fun i j hi hj => by rw [sumTo_eq_sum]; exact hright i j hi hj
  have e2 : Matrix.ofFn n n (fun i j => sumTo (fun k => g' i k * M.elem k j) n) =
      Matrix.ofFn n n fun i j => if i = j then (1 : α) else 0 :=
    Matrix.ofFn_congr _ _ _ _ fun i j hi hj => by rw [sumTo_eq_sum]; exact hleft i j hi hj
  rw [e1] at p1
  rw [e2] at p2
  exact ⟨_, _, hinv, rfl, rfl, eye_ofFn n 1, p1, p2⟩

/-- Witness of C18 on `[[2,1],[1,1]]` over the rationals with `EPS = 1/1000`: the recorded
pivot rows are `0, 1` and the inverse is `[[1,-1],[-1,2]]`. -/
theorem inverse_two_sided_witness :
    (0 : ℚ) < 1 / 1000 ∧ 1 ≤ 2 ∧ dominant2.Valid ∧ dominant2.rows = 2 ∧ dominant2.cols = 2 ∧
    pivotRows (1 / 1000) dominant2 = some (List.range 2) ∧
    inverse (1 / 1000) dominant2 =
      some (Matrix.ofCells 2 2 [some 1, some (-1), some (-1), some 2]) ∧
    ∃ R E, inverse (1 / 1000) dominant2 = some R ∧ R.rows = 2 ∧ R.cols = 2 ∧
      eye 2 1 = some E ∧ prod dominant2 R = some E ∧ prod R dominant2 = some E :=
  ⟨by norm_num, by decide, ⟨[2, 1, 1, 1], by decide!⟩, rfl, rfl, by decide!, by decide!,
    inverse_two_sided (1 / 1000) (by norm_num) dominant2 2 (by decide)
      ⟨[2, 1, 1, 1], by decide!⟩ rfl rfl (by decide!)⟩

/-- C14 fails on the code: in the working matrix `[[-5,0],[1,1]]` (the input of `inverse` at
step `k = 0`) the pivot search records row `p = 1`, although `abs(invA[1][0]) = 1` is below
`abs(invA[0][0]) = 5`: the maximum is seeded with `invA[0][0] = -5` itself, not with its
absolute value, so the candidate `abs(1) = 1 > -5` replaces it. -/
theorem pivotSearch_not_max :
    Matrix.ofArray 2 2 [-5, 0, 1, 1] = some negPivot2 ∧
    pivotSearch negPivot2 2 0 = some (1, 1) ∧
    pivotRows (1 / 1000) negPivot2 = some [1, 1] ∧
    negPivot2.get 1 0 = some 1 ∧ negPivot2.get 0 0 = some (-5) ∧
    |(1 : ℚ)| < |(-5 : ℚ)| := by
  decide!

/-- C19 fails on the code: with `EPS = 1/1000`, `n = 2` and `x = -1` (so `abs(x) >= EPS`),
`inverse(eye(2, -1))` returns the sentinel `Matrix<Type>(0,0)` instead of
`eye(2, 1/x) = eye(2, -1)`: at step 0 the maximum is seeded with `invA[0][0] = -1`, the
candidate `abs(invA[1][0]) = 0 > -1` replaces it, and the pivot `0` fails the test. -/
theorem inverse_negative_eye :
    eye 2 (-1 : ℚ) = some negIdentity2 ∧ (1 / 1000 : ℚ) ≤ |(-1 : ℚ)| ∧
    pivotSearch negIdentity2 2 0 = some (0, 1) ∧
    inverse (1 / 1000) negIdentity2 = Matrix.zeros 0 0 ∧
    (inverse (1 / 1000) negIdentity2).map Matrix.rows = some 0 ∧
    eye 2 (1 / (-1) : ℚ) = some negIdentity2 := by
  decide!

namespace Matrix

variable {α : Type}

theorem copyFromArray_null (m m' : Matrix α) (v : Ptr (Option α))
    (h : m.copyFromArray v = some m') :
    m'.pv0.isNull = m.pv0.isNull := by
  refine loopFrom_preserve _ (fun t : Matrix α => t.pv0.isNull = m.pv0.isNull)
    ?_ _ _ m m' h rfl
  intro j t t' ht hP
  cases hr : v.read (j : Int) with
  | none => simp [hr] at ht
  | some x =>
    cases hp : t.pv0 with
    | null => simp [hr, hp, Ptr.write] at ht
    | freed => simp [hr, hp, Ptr.write] at ht
    | live cells =>
      cases hw : (Ptr.live cells).write (j : Int) x with
      | none => simp [hr, hp, hw] at ht
      | some p =>
        simp only [hr, hp, hw, Option.some_bind, Option.map_some', Option.some.injEq] at ht
        subst ht
        rw [← hP, hp]
        simp only [Ptr.write] at hw
        split_ifs at hw
        simp only [Option.some.injEq] at hw
        subst hw
        rfl

theorem setByScalar_null (m m' : Matrix α) (x : α) (h : m.setByScalar x = some m') :
    m'.pv0.isNull = m.pv0.isNull := by
  refine loopFrom_preserve _ (fun t : Matrix α => t.pv0.isNull = m.pv0.isNull)
    ?_ _ _ m m' h rfl
  intro j t t' ht hP
  cases hp : t.pv0 with
  | null => simp [hp, Ptr.write] at ht
  | freed => simp [hp, Ptr.write] at ht
  | live cells =>
    cases hw : (Ptr.live cells).write (j : Int) (some x) with
    | none => simp [hp, hw] at ht
    | some p =>
      simp only [hp, hw, Option.map_some', Option.some.injEq] at ht
      subst ht
      rw [← hP, hp]
      simp only [Ptr.write] at hw
      split_ifs at hw
      simp only [Option.some.injEq] at hw
      subst hw
      rfl

theorem destroy_fields (m : Matrix α) :
    m.destroy.nRow = m.nRow ∧ m.destroy.nColumn = m.nColumn ∧ m.destroy.nTotal = m.nTotal ∧
      m.destroy.pv0.isNull = m.pv0.isNull := by
  unfold destroy
  cases hp : m.pv0 with
  | null => simp [Ptr.isNull, hp]
  | freed =>
    simp only [Ptr.isNull, Bool.false_eq_true, if_false]
    split_ifs <;> simp [Ptr.delete, Ptr.isNull]
  | live cells =>
    simp only [Ptr.isNull, Bool.false_eq_true, if_false]
    split_ifs <;> simp [Ptr.delete, Ptr.isNull]

theorem copyFromArray_rowPtrs (m m' : Matrix α) (v : Ptr (Option α))
    (h : m.copyFromArray v = some m') :
    m'.prow0 = m.prow0 ∧ m'.prow1 = m.prow1 := by
  refine loopFrom_preserve _ (fun t : Matrix α => t.prow0 = m.prow0 ∧ t.prow1 = m.prow1)
    ?_ _ _ m m' h ⟨rfl, rfl⟩
  intro j t t' ht hP
  cases hr : v.read (j : Int) with
  | none => simp [hr] at ht
  | some x =>
    cases hw : t.pv0.write (j : Int) x with
    | none => simp [hr, hw] at ht
    | some p =>
      simp only [hr, hw, Option.some_bind, Option.map_some', Option.some.injEq] at ht
      subst ht
      exact hP

theorem setByScalar_rowPtrs (m m' : Matrix α) (x : α) (h : m.setByScalar x = some m') :
    m'.prow0 = m.prow0 ∧ m'.prow1 = m.prow1 := by
  refine loopFrom_preserve _ (fun t : Matrix α => t.prow0 = m.prow0 ∧ t.prow1 = m.prow1)
    ?_ _ _ m m' h ⟨rfl, rfl⟩
  intro j t t' ht hP
  cases hw : t.pv0.write (j : Int) (some x) with
  | none => simp [hw] at ht
  | some p =>
    simp only [hw, Option.map_some', Option.some.injEq] at ht
    subst ht
    exact hP

theorem destroy_null (m : Matrix α) (h : m.pv0.isNull = true) : m.destroy = m := by
  unfold destroy
  rw [if_pos h]

theorem destroy_released (m : Matrix α) (h : m.pv0.isNull = false)
    (h0 : m.prow0.isNull = false) (h1 : m.prow1.isNull = false) :
    m.destroy.pv0 = Ptr.freed ∧ m.destroy.prow0 = Ptr.freed ∧ m.destroy.prow1 = Ptr.freed ∧
      m.destroy.prow1Off = m.prow1Off + 1 := by
  unfold destroy
  cases hp : m.pv0 <;> cases hq : m.prow0 <;> cases hr : m.prow1 <;>
    simp_all [Ptr.isNull, Ptr.delete]

end Matrix

theorem ReachableD.rowPtrs_null {α : Type} {M : Matrix α} (h : ReachableD M) :
    M.prow0.isNull = M.pv0.isNull ∧ M.prow1.isNull = M.pv0.isNull := by
  induction h with
  | new => exact ⟨rfl, rfl⟩
  | fill r c x M h =>
    obtain ⟨h0, h1⟩ := Matrix.setByScalar_rowPtrs _ _ _ h
    rw [Matrix.setByScalar_null _ _ _ h, h0, h1]
    exact ⟨rfl, rfl⟩
  | ofArray r c a M h =>
    obtain ⟨h0, h1⟩ := Matrix.copyFromArray_rowPtrs _ _ _ h
    rw [Matrix.copyFromArray_null _ _ _ h, h0, h1]
    exact ⟨rfl, rfl⟩
  | copy A M _ h _ =>
    obtain ⟨h0, h1⟩ := Matrix.copyFromArray_rowPtrs _ _ _ h
    rw [Matrix.copyFromArray_null _ _ _ h, h0, h1]
    exact ⟨rfl, rfl⟩
  | assign S A M b _ _ h ihS _ =>
    unfold Matrix.assign at h
    split_ifs at h with hb hd
    · simp only [Option.some.injEq] at h; subst h; exact ihS
    · obtain ⟨h0, h1⟩ := Matrix.copyFromArray_rowPtrs _ _ _ h
      rw [Matrix.copyFromArray_null _ _ _ h, h0, h1]
      exact ihS
    · obtain ⟨h0, h1⟩ := Matrix.copyFromArray_rowPtrs _ _ _ h
      rw [Matrix.copyFromArray_null _ _ _ h, h0, h1]
      exact ⟨rfl, rfl⟩
  | resize S r c _ ih =>
    unfold Matrix.resize
    split_ifs with h
    · exact ih
    · exact ⟨rfl, rfl⟩
  | destroy S _ ih =>
    obtain ⟨h0, h1⟩ := ih
    unfold Matrix.destroy
    cases hp : S.pv0 <;> cases hq : S.prow0 <;> cases hr : S.prow1 <;>
      simp_all [Ptr.isNull, Ptr.delete]

theorem ReachableD.null_dims {α : Type} {M : Matrix α} (h : ReachableD M) :
    M.pv0.isNull = true → M.nRow = 0 ∧ M.nColumn = 0 := by
  induction h with
  | new => intro _; exact ⟨rfl, rfl⟩
  | fill r c x M h =>
    intro hn
    rw [Matrix.setByScalar_null _ _ _ h] at hn
    exact absurd hn (by simp [Matrix.init, Ptr.isNull])
  | ofArray r c a M h =>
    intro hn
    rw [Matrix.copyFromArray_null _ _ _ h] at hn
    exact absurd hn (by simp [Matrix.init, Ptr.isNull])
  | copy A M _ h _ =>
    intro hn
    rw [Matrix.copyFromArray_null _ _ _ h] at hn
    exact absurd hn (by simp [Matrix.init, Ptr.isNull])
  | assign S A M b _ _ h ihS _ =>
    intro hn
    unfold Matrix.assign at h
    split_ifs at h with hb hd
    · simp only [Option.some.injEq] at h; subst h; exact ihS hn
    · obtain ⟨h1, h2, _⟩ := Matrix.copyFromArray_dims _ _ _ h
      rw [Matrix.copyFromArray_null _ _ _ h] at hn
      rw [h1, h2]
      exact ihS hn
    · rw [Matrix.copyFromArray_null _ _ _ h] at hn
      exact absurd hn (by simp [Matrix.init, Ptr.isNull])
  | resize S r c _ ih =>
    intro hn
    unfold Matrix.resize at hn ⊢
    split_ifs at hn ⊢ with h
    · exact ih hn
    · exact absurd hn (by simp [Matrix.init, Ptr.isNull])
  | destroy S _ ih =>
    intro hn
    obtain ⟨h1, h2, _, h4⟩ := Matrix.destroy_fields S
    rw [h4] at hn
    rw [h1, h2]
    exact ih hn

/-- C15, as the claim states it, fails: the sentinel `Matrix<Type>(0,0)` that `inverse`
returns for `[[1,2],[2,4]]` has `rowCount == 0` and `columnCount == 0` with a non-null buffer
(`init` allocates `new Type[0]`), and `destroy()` on the 2-by-2 matrix `[[1,2],[3,4]]` leaves
the buffer pointer non-null and the dimensions 2 by 2. -/
theorem empty_state_counterexample :
    inverse (1 / 1000) singular2 = some (Matrix.ofCells 0 0 []) ∧
    Matrix.fill 0 0 (0 : ℚ) = some (Matrix.ofCells 0 0 []) ∧
    (Matrix.ofCells 0 0 ([] : List (Option ℚ))).pv0.isNull = false ∧
    (Matrix.ofCells 0 0 ([] : List (Option ℚ))).nRow = 0 ∧
    (Matrix.ofCells 0 0 ([] : List (Option ℚ))).nColumn = 0 ∧
    sampleA.destroy.pv0 = Ptr.freed ∧ sampleA.destroy.pv0.isNull = false ∧
    sampleA.destroy.nRow = 2 ∧ sampleA.destroy.nColumn = 2 := by
  decide!

/-- C15, amended. In every state reachable through the default constructor, the constructors
`(rows, columns, value)` and `(rows, columns, array)`, copy construction, copy assignment,
`resize` and `destroy`: a null buffer pointer implies `rowCount == 0` and `columnCount == 0`,
and `destroy()` then changes nothing; with a non-null buffer pointer `destroy()` releases the
three arrays (the buffer pointer and both row-pointer arrays are left released, not null) and
moves `prow1` forward by one; in both cases `destroy()` leaves the dimensions, the element
count and the nullness of the buffer pointer as they were. -/
theorem null_buffer_dims {α : Type} (M : Matrix α) (h : ReachableD M) :
    (M.pv0.isNull = true → M.nRow = 0 ∧ M.nColumn = 0 ∧ M.destroy = M) ∧
    (M.pv0.isNull = false →
      M.destroy.pv0 = Ptr.freed ∧ M.destroy.prow0 = Ptr.freed ∧ M.destroy.prow1 = Ptr.freed ∧
      M.destroy.prow1Off = M.prow1Off + 1) ∧
    M.destroy.nRow = M.nRow ∧ M.destroy.nColumn = M.nColumn ∧ M.destroy.nTotal = M.nTotal ∧
    M.destroy.pv0.isNull = M.pv0.isNull :=
  ⟨fun hn => ⟨(h.null_dims hn).1, (h.null_dims hn).2, Matrix.destroy_null M hn⟩,
    fun hn => Matrix.destroy_released M hn (h.rowPtrs_null.1.trans hn)
      (h.rowPtrs_null.2.trans hn),
    Matrix.destroy_fields M⟩

/-- Witness of C15 (amended) on the live 2-by-2 matrix `[[1,2],[3,4]]`, built by the array
constructor: its buffer pointer is non-null, and `destroy()` changes the object. -/
theorem null_buffer_dims_witness :
    ReachableD sampleA ∧ sampleA.pv0.isNull = false ∧ sampleA.destroy ≠ sampleA ∧
    ((sampleA.pv0.isNull = true →
        sampleA.nRow = 0 ∧ sampleA.nColumn = 0 ∧ sampleA.destroy = sampleA) ∧
      (sampleA.pv0.isNull = false →
        sampleA.destroy.pv0 = Ptr.freed ∧ sampleA.destroy.prow0 = Ptr.freed ∧
        sampleA.destroy.prow1 = Ptr.freed ∧
        sampleA.destroy.prow1Off = sampleA.prow1Off + 1) ∧
      sampleA.destroy.nRow = sampleA.nRow ∧ sampleA.destroy.nColumn = sampleA.nColumn ∧
      sampleA.destroy.nTotal = sampleA.nTotal ∧
      sampleA.destroy.pv0.isNull = sampleA.pv0.isNull) :=
  ⟨ReachableD.ofArray 2 2 [1, 2, 3, 4] sampleA (by decide), by decide, by decide,
    null_buffer_dims sampleA (ReachableD.ofArray 2 2 [1, 2, 3, 4] sampleA (by decide))⟩

section PivotSeed

variable {α : Type} [LinearOrderedField α]

theorem pivotSearch_bound (n k : Nat) (g : Nat → Nat → α) (hk : k < n) :
    ∃ s, pivotSearch (Matrix.ofFn n n g) n k = some s ∧ k ≤ s.2 ∧ s.2 < n ∧ g k k ≤ s.1 ∧
      (∀ i, k < i → i < n → |g i k| ≤ s.1) ∧ (s.2 ≠ k → s.1 = |g s.2 k|) ∧
      (s.2 = k → s.1 = g k k) := by
  obtain ⟨s', h1, h2⟩ := forLoop_inv
    (fun i (s : α × Nat) => ((Matrix.ofFn n n g).get i k).bind fun x =>
      let tmp := |x|
      if tmp > s.1 then some (tmp, i) else some s)
    (fun t s => k ≤ s.2 ∧ s.2 < n ∧ g k k ≤ s.1 ∧ (∀ i, k < i → i < t → |g i k| ≤ s.1) ∧
      (s.2 ≠ k → s.1 = |g s.2 k|) ∧ (s.2 = k → s.1 = g k k))
    (k + 1) n (by omega) (g k k, k)
    ⟨le_refl _, hk, le_refl _, fun i h1 h2 => by omega, fun h => absurd rfl h, fun _ => rfl⟩
    (by
      rintro i t hki hi ⟨q1, q2, q3, q4, q5, q6⟩
      have hget := Matrix.get_ofFn n n g i k hi hk
      by_cases hgt : |g i k| > t.1
      · refine ⟨(|g i k|, i), ?_, by show k ≤ i; omega, hi, le_of_lt (lt_of_le_of_lt q3 hgt),
          ?_, fun _ => rfl, fun h => ?_⟩
        · simp only [hget, Option.some_bind, hgt, if_true]
        · intro j hj1 hj2
          by_cases hji : j = i
          · subst hji; exact le_refl _
          · exact le_trans (q4 j hj1 (by omega)) (le_of_lt hgt)
        · exact absurd (show i = k from h) (by omega)
      · refine ⟨t, ?_, q1, q2, q3, ?_, q5, q6⟩
        · simp only [hget, Option.some_bind, hgt, if_false]
        · intro j hj1 hj2
          by_cases hji : j = i
          · subst hji; exact not_lt.mp hgt
          · exact q4 j hj1 (by omega))
  refine ⟨s', ?_, h2⟩
  rw [pivotSearch, Matrix.get_ofFn _ _ _ k k hk hk, Option.some_bind]
  exact h1

/-- The pivot search selects the column maximum when the diagonal entry is not negative: the
recorded row `p` then has `abs(invA[p][k]) >= abs(invA[i][k])` for every row `k <= i < n`. -/
theorem pivotSearch_max_of_nonneg (n k : Nat) (g : Nat → Nat → α) (hk : k < n)
    (h0 : 0 ≤ g k k) :
    ∃ s, pivotSearch (Matrix.ofFn n n g) n k = some s ∧ k ≤ s.2 ∧ s.2 < n ∧
      ∀ i, k ≤ i → i < n → |g i k| ≤ |g s.2 k| := by
  obtain ⟨s, hs, h1, h2, h3, h4, h5, h6⟩ := pivotSearch_bound n k g hk
  have hval : s.1 = |g s.2 k| := by
    by_cases hsk : s.2 = k
    · rw [h6 hsk, hsk, abs_of_nonneg h0]
    · exact h5 hsk
  refine ⟨s, hs, h1, h2, fun i hi1 hi2 => ?_⟩
  rw [← hval]
  by_cases hik : i = k
  · subst hik; rw [abs_of_nonneg h0]; exact h3
  · exact h4 i (by omega) hi2

theorem inverseFrom_eye (EPS x : α) (hE : 0 < EPS) (hx : EPS ≤ x) (n : Nat) :
    ∀ (steps k : Nat) (index : List Nat), k + steps = n → index.length = n →
      (∀ t, t < k → index[t]? = some t) →
      inverseFrom EPS n steps k
        (Matrix.ofFn n n fun a b => if a = b then (if a < k then 1 / x else x) else 0) index =
      some (Matrix.ofFn n n fun a b => if a = b then 1 / x else 0) := by
  have hxpos : 0 < x := lt_of_lt_of_le hE hx
  intro steps
  induction steps with
  | zero =>
    intro k index hk _ hix
    have hkn : k = n := by omega
    subst hkn
    rw [inverseFrom, exchangeBack_id _ k index hix]
    exact congrArg some (Matrix.ofFn_congr _ _ _ _ fun a b ha _ => by simp [ha])
  | succ steps ih =>
    intro k index hk hlen hix
    have hkn : k < n := by omega
    obtain ⟨s, hs, h1, h2, h3, _, h5, h6⟩ := pivotSearch_bound n k
      (fun a b => if a = b then (if a < k then 1 / x else x) else 0) hkn
    simp only [if_true, lt_self_iff_false, if_false] at h3 h6
    have hsk : s.2 = k := by
      by_contra hne
      have h := h5 hne
      simp only [hne, if_false, abs_zero] at h
      rw [h] at h3
      exact absurd hxpos (not_lt.mpr h3)
    have hs1 : s.1 = x := h6 hsk
    have hnlt : ¬ |s.1| < EPS := by
      rw [hs1, abs_of_pos hxpos]; exact not_lt.mpr hx
    rw [inverseFrom, hs, Option.some_bind]
    simp only [hnlt, if_false, hsk, ne_eq, not_true_eq_false, Option.some_bind]
    rw [pivotStep_ofFn n k _ hkn, Option.some_bind]
    have hgrid : Matrix.ofFn n n
        (gPivot (fun a b => if a = b then (if a < k then 1 / x else x) else 0) k) =
        Matrix.ofFn n n fun a b => if a = b then (if a < k + 1 then 1 / x else x) else 0 := by
      apply Matrix.ofFn_congr
      intro a b _ _
      by_cases ha : a = k
      · subst ha
        by_cases hb : b = a
        · subst hb; simp [gPivot]
        · have hb' : ¬ a = b := fun h => hb h.symm
          simp [gPivot, hb, hb']
      · have hlt : a < k + 1 ↔ a < k := by omega
        have ha' : ¬ k = a := fun h => ha h.symm
        by_cases hb : b = k
        · subst hb; simp [gPivot, ha]
        · have hb' : ¬ k = b := fun h => hb h.symm
          simp [gPivot, ha, hb, hb', hlt]
    rw [hgrid]
    refine ih (k + 1) _ (by omega) (by simpa using hlen) ?_
    intro t ht
    rw [List.getElem?_set]
    by_cases htk : k = t
    · subst htk; simp [hlen, hkn]
    · simp only [htk, if_false]; exact hix t (by omega)

/-- The inverse of a scaled identity with a positive scalar: for `EPS > 0`, every `n` and every
`x >= EPS`, `inverse(eye(n, x))` returns `eye(n, 1/x)`. -/
theorem inverse_eye_pos (EPS x : α) (hE : 0 < EPS) (hx : EPS ≤ x) (n : Nat) :
    ∃ E R, eye n x = some E ∧ inverse EPS E = some R ∧ eye n (1 / x) = some R := by
  refine ⟨_, _, eye_ofFn n x, ?_, eye_ofFn n (1 / x)⟩
  unfold inverse
  simp only [Matrix.rows_ofFn, Matrix.cols_ofFn, if_true, Matrix.copy_ofFn, Option.some_bind]
  have h := inverseFrom_eye EPS x hE hx n n 0 (List.replicate n 0) (by omega) (by simp)
    (fun t ht => absurd ht (Nat.not_lt_zero t))
  simp only [Nat.not_lt_zero, if_false] at h
  exact h

/-- The inverse of a scaled identity with a negative scalar: for `EPS > 0`, every `n >= 2` and
every `x < 0`, `inverse(eye(n, x))` returns the sentinel `Matrix<Type>(0,0)`. -/
theorem inverse_eye_neg (EPS x : α) (hE : 0 < EPS) (hx : x < 0) (n : Nat) (hn : 2 ≤ n) :
    ∃ E, eye n x = some E ∧ inverse EPS E = Matrix.zeros 0 0 := by
  refine ⟨_, eye_ofFn n x, ?_⟩
  obtain ⟨m, rfl⟩ : ∃ m, n = m + 1 := ⟨n - 1, by omega⟩
  obtain ⟨s, hs, _, _, _, h4, h5, h6⟩ := pivotSearch_bound (m + 1) 0
    (fun a b => if a = b then x else 0) (by omega)
  have h41 := h4 1 (by omega) (by omega)
  simp only [one_ne_zero, if_false, abs_zero] at h41
  have hs2 : s.2 ≠ 0 := by
    intro h
    have := h6 h
    simp only [if_true] at this
    rw [this] at h41
    exact absurd hx (not_lt.mpr h41)
  have hs1 : s.1 = 0 := by
    have := h5 hs2
    simpa [hs2] using this
  unfold inverse
  simp only [Matrix.rows_ofFn, Matrix.cols_ofFn, if_true, Matrix.copy_ofFn, Option.some_bind]
  rw [inverseFrom, hs, Option.some_bind]
  simp only [hs1, abs_zero, hE, if_true]

end PivotSeed

end Tspl
